import Mathlib

/-!
# Verification of the RAG-Eval-Ja hybrid retrieval core and agentic controller

Shallow embedding of the retrieval fusion engine (`src/retrieval/retriever.py`,
`src/retrieval/reranker.py`) and the agentic query controller
(`src/rag/agentic_rag.py`).  Python floats are modelled as rationals (`ℚ`),
Python dicts as insertion-ordered association lists, and Python's stable
`sorted(..., reverse=True)` as a stable descending insertion sort.
External collaborators (vector store, embedder, cross-encoder, LLM client)
are parameters of the embedded functions, mirroring the dependency-injected
`VectorStoreBase` / `LLMClientBase` interfaces of the source.
-/

namespace RagEval

/-- JSON-like values.  Models the Python objects produced by `json.loads`
and the heterogeneous `dict` payloads (`metadata`, `usage`) of the source. -/
inductive JVal where
  | jnull : JVal
  | jbool (b : Bool) : JVal
  | jnum (q : ℚ) : JVal
  | jstr (s : String) : JVal
  | jarr (xs : List JVal) : JVal
  | jobj (fields : List (String × JVal)) : JVal

/-- `SearchResult` dataclass from `src/retrieval/vector_store.py`
(chunk_id, content, score, source_file, page_number, metadata). -/
structure SearchResult where
  chunk_id : String
  content : String
  score : ℚ
  source_file : String
  page_number : Nat
  metadata : List (String × JVal)

/-- Python dict lookup on an insertion-ordered association list. -/
def dlookup (k : String) : List (String × α) → Option α
  | [] => none
  | (k₁, v) :: rest => if k₁ = k then some v else dlookup k rest

/-- Python `d[k] = v` on an insertion-ordered association list:
if the key exists its value is replaced in place, otherwise the pair is
appended at the end (dicts preserve insertion order). -/
def dictUpsert (m : List (String × α)) (k : String) (v : α) : List (String × α) :=
  match m with
  | [] => [(k, v)]
  | (k₁, v₁) :: rest =>
      if k₁ = k then (k₁, v) :: rest else (k₁, v₁) :: dictUpsert rest k v

theorem dlookup_dictUpsert_self (m : List (String × α)) (k : String) (v : α) :
    dlookup k (dictUpsert m k v) = some v := by
  induction m with
  | nil => simp [dictUpsert, dlookup]
  | cons p rest ih =>
      obtain ⟨k₁, v₁⟩ := p
      by_cases h : k₁ = k <;> simp [dictUpsert, dlookup, h, ih]

theorem dlookup_dictUpsert_ne (m : List (String × α)) (k k₂ : String) (v : α)
    (h : k₂ ≠ k) : dlookup k₂ (dictUpsert m k v) = dlookup k₂ m := by
  induction m with
  | nil =>
      simp only [dictUpsert, dlookup]
      rw [if_neg (fun h₁ => h h₁.symm)]
  | cons p rest ih =>
      obtain ⟨k₁, v₁⟩ := p
      by_cases h₁ : k₁ = k
      · subst h₁
        simp only [dictUpsert, if_pos rfl, dlookup]
        rw [if_neg (fun h₂ => h h₂.symm), if_neg (fun h₂ => h h₂.symm)]
      · simp only [dictUpsert, if_neg h₁, dlookup]
        by_cases h₂ : k₁ = k₂
        · rw [if_pos h₂, if_pos h₂]
        · rw [if_neg h₂, if_neg h₂, ih]

/-! ## Stable descending sort

Models Python's `sorted(xs, key=key, reverse=True)`: the result is ordered by
`key` descending and elements with equal keys keep their original relative
order (Python's sort is stable, and `reverse=True` does not reverse ties). -/

/-- Insert `x` into a descending-sorted list, before the first element whose
key is `≤ key x` (so an element equal in key to `x` stays after `x`,
preserving the original order of ties). -/
def insertDescBy (key : α → ℚ) (x : α) : List α → List α
  | [] => [x]
  | y :: ys => if key y ≤ key x then x :: y :: ys else y :: insertDescBy key x ys

/-- Stable descending insertion sort by a rational-valued key. -/
def sortDescBy (key : α → ℚ) : List α → List α
  | [] => []
  | x :: xs => insertDescBy key x (sortDescBy key xs)

theorem perm_insertDescBy (key : α → ℚ) (x : α) (l : List α) :
    List.Perm (insertDescBy key x l) (x :: l) := by
  induction l with
  | nil => simp [insertDescBy]
  | cons y ys ih =>
      by_cases h : key y ≤ key x
      · simp [insertDescBy, h]
      · simp only [insertDescBy, if_neg h]
        exact ((ih.cons y).trans (List.Perm.swap x y ys))

theorem perm_sortDescBy (key : α → ℚ) (l : List α) :
    List.Perm (sortDescBy key l) l := by
  induction l with
  | nil => simp [sortDescBy]
  | cons x xs ih =>
      exact (perm_insertDescBy key x (sortDescBy key xs)).trans (ih.cons x)

theorem length_sortDescBy (key : α → ℚ) (l : List α) :
    (sortDescBy key l).length = l.length :=
  (perm_sortDescBy key l).length_eq

theorem mem_insertDescBy (key : α → ℚ) (x z : α) (l : List α) :
    z ∈ insertDescBy key x l ↔ z = x ∨ z ∈ l := by
  rw [(perm_insertDescBy key x l).mem_iff, List.mem_cons]

theorem sorted_insertDescBy (key : α → ℚ) (x : α) (l : List α)
    (hl : l.Pairwise (fun a b => key b ≤ key a)) :
    (insertDescBy key x l).Pairwise (fun a b => key b ≤ key a) := by
  induction l with
  | nil => simp [insertDescBy]
  | cons y ys ih =>
      rcases List.pairwise_cons.mp hl with ⟨hy, hys⟩
      by_cases h : key y ≤ key x
      · rw [insertDescBy, if_pos h]
        refine List.pairwise_cons.mpr ⟨?_, hl⟩
        intro z hz
        rcases List.mem_cons.mp hz with hz | hz
        · exact hz ▸ h
        · exact le_trans (hy z hz) h
      · rw [insertDescBy, if_neg h]
        refine List.pairwise_cons.mpr ⟨?_, ih hys⟩
        intro z hz
        rcases (mem_insertDescBy key x z ys).mp hz with hz | hz
        · exact hz ▸ le_of_lt (lt_of_not_le h)
        · exact hy z hz

theorem sorted_sortDescBy (key : α → ℚ) (l : List α) :
    (sortDescBy key l).Pairwise (fun a b => key b ≤ key a) := by
  induction l with
  | nil => simp [sortDescBy]
  | cons x xs ih => exact sorted_insertDescBy key x (sortDescBy key xs) ih

/-- Inserting does not disturb the subsequence of any fixed key value:
the filter by `key = s` of the inserted list is the filter of `x :: l`. -/
theorem filter_insertDescBy (key : α → ℚ) (x : α) (l : List α) (s : ℚ) :
    (insertDescBy key x l).filter (fun a => decide (key a = s)) =
      (x :: l).filter (fun a => decide (key a = s)) := by
  induction l with
  | nil => rfl
  | cons y ys ih =>
      by_cases h : key y ≤ key x
      · simp [insertDescBy, h]
      · have hxy : key x < key y := lt_of_not_le h
        rw [insertDescBy, if_neg h]
        by_cases hx : key x = s
        · have hy : ¬ (key y = s) := by
            intro hy
            rw [hx] at hxy
            rw [hy] at hxy
            exact lt_irrefl s hxy
          simp [List.filter_cons, decide_eq_true hx, decide_eq_false hy, ih]
        · simp [List.filter_cons, decide_eq_false hx, ih]

/-- Stability of the sort: for every key value `s`, the elements whose key is
`s` appear in the sorted output in exactly their original relative order. -/
theorem filter_sortDescBy (key : α → ℚ) (l : List α) (s : ℚ) :
    (sortDescBy key l).filter (fun a => decide (key a = s)) =
      l.filter (fun a => decide (key a = s)) := by
  induction l with
  | nil => rfl
  | cons x xs ih =>
      calc (sortDescBy key (x :: xs)).filter (fun a => decide (key a = s))
          = ((x :: sortDescBy key xs)).filter (fun a => decide (key a = s)) :=
            filter_insertDescBy key x (sortDescBy key xs) s
        _ = (x :: xs).filter (fun a => decide (key a = s)) := by
            simp only [List.filter_cons, ih]

/-! ## Reciprocal Rank Fusion (`HybridRetriever._reciprocal_rank_fusion`)

The source builds two Python dicts keyed by `chunk_id`:
`scores` (fused RRF score) and `chunk_map` (first stored `SearchResult`).
Both are modelled together as one insertion-ordered association list of
entries `(chunk_id, fused score, stored result)`. -/

/-- One entry of the fused dicts: chunk_id key, running fused score, and the
`chunk_map` record for that key. -/
abbrev FEntry := String × ℚ × SearchResult

/-- The vector-loop dict writes `scores[id] = v; chunk_map[id] = r`:
overwrite in place when the key exists, else append (dict insertion order). -/
def setEntry : List FEntry → String → ℚ → SearchResult → List FEntry
  | [], cid, v, r => [(cid, v, r)]
  | (k, s, c) :: rest, cid, v, r =>
      if k = cid then (k, v, r) :: rest else (k, s, c) :: setEntry rest cid v r

/-- The bm25-loop dict write: `scores[id] += v` when the key exists
(`chunk_map` untouched), else `scores[id] = v; chunk_map[id] = r` appended. -/
def addEntry : List FEntry → String → ℚ → SearchResult → List FEntry
  | [], cid, v, r => [(cid, v, r)]
  | (k, s, c) :: rest, cid, v, r =>
      if k = cid then (k, s + v, c) :: rest else (k, s, c) :: addEntry rest cid v r

/-- First loop of `_reciprocal_rank_fusion`: for 0-based `rank`, store
`alpha * (1.0 / (rrf_k + rank + 1))` for each vector result. -/
def rrfVectorLoop (alpha rrf_k : ℚ) (rank : Nat) :
    List SearchResult → List FEntry → List FEntry
  | [], acc => acc
  | r :: rest, acc =>
      rrfVectorLoop alpha rrf_k (rank + 1) rest
        (setEntry acc r.chunk_id (alpha * (1 / (rrf_k + (rank : ℚ) + 1))) r)

/-- Second loop: add `(1.0 - alpha) * (1.0 / (rrf_k + rank + 1))` for each
bm25 result, summing when the chunk_id was already seen. -/
def rrfBm25Loop (alpha rrf_k : ℚ) (rank : Nat) :
    List SearchResult → List FEntry → List FEntry
  | [], acc => acc
  | r :: rest, acc =>
      rrfBm25Loop alpha rrf_k (rank + 1) rest
        (addEntry acc r.chunk_id ((1 - alpha) * (1 / (rrf_k + (rank : ℚ) + 1))) r)

/-- The fused score/chunk dicts after both loops. -/
def fuseEntries (alpha rrf_k : ℚ)
    (vector_results bm25_results : List SearchResult) : List FEntry :=
  rrfBm25Loop alpha rrf_k 0 bm25_results
    (rrfVectorLoop alpha rrf_k 0 vector_results [])

/-- The output record built for a fused entry: the `chunk_map` record with the
fused score substituted (the source constructs a fresh `SearchResult`). -/
def fusedResult (e : FEntry) : SearchResult :=
  { chunk_id := e.2.2.chunk_id, content := e.2.2.content, score := e.2.1,
    source_file := e.2.2.source_file, page_number := e.2.2.page_number,
    metadata := e.2.2.metadata }

/-- `HybridRetriever._reciprocal_rank_fusion`: build the fused dicts, sort the
keys by fused score descending (Python's `sorted` is stable, and dict keys
iterate in insertion order), keep the first `top_k`, and emit the stored
records with their fused scores. -/
def reciprocal_rank_fusion (alpha rrf_k : ℚ)
    (vector_results bm25_results : List SearchResult) (top_k : Nat) :
    List SearchResult :=
  ((sortDescBy (fun e : FEntry => e.2.1)
      (fuseEntries alpha rrf_k vector_results bm25_results)).take top_k).map
    fusedResult

/-! Spec-side definitions (spec §4.3, stated from the spec's words, to be
compared with the embedded fusion). -/

/-- 0-based index of the first occurrence of `cid` in a list of ids. -/
def rankOf (cid : String) : List String → Option Nat
  | [] => none
  | x :: xs => if x = cid then some 0 else (rankOf cid xs).map (· + 1)

/-- Spec §4.3: the contribution of one source list with weight `w` is
`w / (k_rrf + r)` where `r` is the 1-based rank in that list, and a candidate
absent from the source contributes 0. -/
def rrfContribution (w rrf_k : ℚ) (ids : List String) (cid : String) : ℚ :=
  match rankOf cid ids with
  | some r => w / (rrf_k + (r : ℚ) + 1)
  | none => 0

/-- Spec §4.3: fused score per candidate = sum of contributions across the two
sources (vector with weight `alpha`, lexical with weight `1 - alpha`). -/
def rrfSpecScore (alpha rrf_k : ℚ) (vec bm : List SearchResult)
    (cid : String) : ℚ :=
  rrfContribution alpha rrf_k (vec.map SearchResult.chunk_id) cid +
    rrfContribution (1 - alpha) rrf_k (bm.map SearchResult.chunk_id) cid

/-! ### Association-list lemmas for the fused dicts -/

theorem rankOf_eq_none_iff (cid : String) (ids : List String) :
    rankOf cid ids = none ↔ cid ∉ ids := by
  induction ids with
  | nil => simp [rankOf]
  | cons x xs ih =>
      by_cases h : x = cid
      · simp [rankOf, h]
      · have hmap : ((rankOf cid xs).map (· + 1) = none) ↔ rankOf cid xs = none := by
          rcases rankOf cid xs with _ | j <;> simp
        rw [rankOf, if_neg h, hmap, ih]
        simp only [List.mem_cons, not_or]
        exact ⟨fun h₁ => ⟨fun h₂ => h h₂.symm, h₁⟩, fun h₁ => h₁.2⟩

theorem rankOf_isSome_of_mem (cid : String) (ids : List String)
    (h : cid ∈ ids) : ∃ j, rankOf cid ids = some j := by
  rcases h₁ : rankOf cid ids with _ | j
  · exact absurd ((rankOf_eq_none_iff cid ids).mp h₁) (fun h₂ => h₂ h)
  · exact ⟨j, rfl⟩

theorem dlookup_eq_none_iff (cid : String) (m : List (String × α)) :
    dlookup cid m = none ↔ cid ∉ m.map Prod.fst := by
  induction m with
  | nil => simp [dlookup]
  | cons p rest ih =>
      obtain ⟨k, v⟩ := p
      by_cases h : k = cid
      · simp [dlookup, h]
      · rw [dlookup, if_neg h, ih]
        simp only [List.map_cons, List.mem_cons, not_or]
        exact ⟨fun h₁ => ⟨fun h₂ => h h₂.symm, h₁⟩, fun h₁ => h₁.2⟩

theorem dlookup_of_mem_of_nodup (m : List (String × α)) (p : String × α)
    (hn : (m.map Prod.fst).Nodup) (hp : p ∈ m) : dlookup p.1 m = some p.2 := by
  induction m with
  | nil => simp at hp
  | cons q rest ih =>
      rcases List.mem_cons.mp hp with hp | hp
      · subst hp
        simp [dlookup]
      · have hq : q.1 ≠ p.1 := by
          intro h
          have : p.1 ∈ rest.map Prod.fst := List.mem_map.mpr ⟨p, hp, rfl⟩
          rw [List.map_cons, List.nodup_cons] at hn
          exact hn.1 (h ▸ this)
        rw [List.map_cons, List.nodup_cons] at hn
        simp only [dlookup, if_neg hq]
        exact ih hn.2 hp

theorem keys_setEntry (acc : List FEntry) (cid : String) (v : ℚ)
    (r : SearchResult) :
    (setEntry acc cid v r).map Prod.fst =
      if cid ∈ acc.map Prod.fst then acc.map Prod.fst
      else acc.map Prod.fst ++ [cid] := by
  induction acc with
  | nil => simp [setEntry]
  | cons e rest ih =>
      obtain ⟨k, s, c⟩ := e
      by_cases h : k = cid
      · simp [setEntry, h]
      · simp only [setEntry, if_neg h, List.map_cons, ih]
        by_cases h₂ : cid ∈ rest.map Prod.fst
        · rw [if_pos h₂, if_pos (List.mem_cons.mpr (Or.inr h₂))]
        · rw [if_neg h₂, if_neg (fun h₃ => h₂
            ((List.mem_cons.mp h₃).resolve_left (fun h₄ => h h₄.symm)))]
          simp

theorem keys_addEntry (acc : List FEntry) (cid : String) (v : ℚ)
    (r : SearchResult) :
    (addEntry acc cid v r).map Prod.fst =
      if cid ∈ acc.map Prod.fst then acc.map Prod.fst
      else acc.map Prod.fst ++ [cid] := by
  induction acc with
  | nil => simp [addEntry]
  | cons e rest ih =>
      obtain ⟨k, s, c⟩ := e
      by_cases h : k = cid
      · simp [addEntry, h]
      · simp only [addEntry, if_neg h, List.map_cons, ih]
        by_cases h₂ : cid ∈ rest.map Prod.fst
        · rw [if_pos h₂, if_pos (List.mem_cons.mpr (Or.inr h₂))]
        · rw [if_neg h₂, if_neg (fun h₃ => h₂
            ((List.mem_cons.mp h₃).resolve_left (fun h₄ => h h₄.symm)))]
          simp

theorem dlookup_setEntry_self (acc : List FEntry) (cid : String) (v : ℚ)
    (r : SearchResult) : dlookup cid (setEntry acc cid v r) = some (v, r) := by
  induction acc with
  | nil => simp [setEntry, dlookup]
  | cons e rest ih =>
      obtain ⟨k, s, c⟩ := e
      by_cases h : k = cid <;> simp [setEntry, dlookup, h, ih]

theorem dlookup_setEntry_ne (acc : List FEntry) (cid k₂ : String) (v : ℚ)
    (r : SearchResult) (h : k₂ ≠ cid) :
    dlookup k₂ (setEntry acc cid v r) = dlookup k₂ acc := by
  induction acc with
  | nil =>
      simp only [setEntry, dlookup]
      rw [if_neg (fun h₁ => h h₁.symm)]
  | cons e rest ih =>
      obtain ⟨k, s, c⟩ := e
      by_cases h₁ : k = cid
      · subst h₁
        simp only [setEntry, if_pos rfl, dlookup]
        rw [if_neg (fun h₂ => h h₂.symm), if_neg (fun h₂ => h h₂.symm)]
      · simp only [setEntry, if_neg h₁, dlookup]
        by_cases h₂ : k = k₂
        · rw [if_pos h₂, if_pos h₂]
        · rw [if_neg h₂, if_neg h₂, ih]

theorem dlookup_addEntry_self_some (acc : List FEntry) (cid : String) (v s₀ : ℚ)
    (r c₀ : SearchResult) (h : dlookup cid acc = some (s₀, c₀)) :
    dlookup cid (addEntry acc cid v r) = some (s₀ + v, c₀) := by
  induction acc with
  | nil => simp [dlookup] at h
  | cons e rest ih =>
      obtain ⟨k, s, c⟩ := e
      by_cases h₁ : k = cid
      · simp only [dlookup, if_pos h₁] at h
        obtain ⟨h₂, h₃⟩ := Prod.mk.injEq .. ▸ Option.some.injEq .. ▸ h
        simp [addEntry, dlookup, h₁, h₂, h₃]
      · simp only [dlookup, if_neg h₁] at h
        simp only [addEntry, if_neg h₁, dlookup, if_neg h₁]
        exact ih h

theorem dlookup_addEntry_self_none (acc : List FEntry) (cid : String) (v : ℚ)
    (r : SearchResult) (h : dlookup cid acc = none) :
    dlookup cid (addEntry acc cid v r) = some (v, r) := by
  induction acc with
  | nil => simp [addEntry, dlookup]
  | cons e rest ih =>
      obtain ⟨k, s, c⟩ := e
      by_cases h₁ : k = cid
      · simp [dlookup, h₁] at h
      · simp only [dlookup, if_neg h₁] at h
        simp only [addEntry, if_neg h₁, dlookup, if_neg h₁]
        exact ih h

theorem dlookup_addEntry_ne (acc : List FEntry) (cid k₂ : String) (v : ℚ)
    (r : SearchResult) (h : k₂ ≠ cid) :
    dlookup k₂ (addEntry acc cid v r) = dlookup k₂ acc := by
  induction acc with
  | nil =>
      simp only [addEntry, dlookup]
      rw [if_neg (fun h₁ => h h₁.symm)]
  | cons e rest ih =>
      obtain ⟨k, s, c⟩ := e
      by_cases h₁ : k = cid
      · subst h₁
        simp only [addEntry, if_pos rfl, dlookup]
        rw [if_neg (fun h₂ => h h₂.symm), if_neg (fun h₂ => h h₂.symm)]
      · simp only [addEntry, if_neg h₁, dlookup]
        by_cases h₂ : k = k₂
        · rw [if_pos h₂, if_pos h₂]
        · rw [if_neg h₂, if_neg h₂, ih]

/-! ### Loop characterizations -/

theorem keys_rrfVectorLoop (alpha rrf_k : ℚ) (l : List SearchResult) :
    (l.map SearchResult.chunk_id).Nodup →
    ∀ (rank : Nat) (acc : List FEntry),
      (rrfVectorLoop alpha rrf_k rank l acc).map Prod.fst =
        acc.map Prod.fst ++
          (l.map SearchResult.chunk_id).filter
            (fun i => decide (i ∉ acc.map Prod.fst)) := by
  induction l with
  | nil => intro _ rank acc; simp [rrfVectorLoop]
  | cons r rest ih =>
      intro hnd rank acc
      rw [List.map_cons, List.nodup_cons] at hnd
      rw [rrfVectorLoop, ih hnd.2, keys_setEntry, List.map_cons, List.filter_cons]
      by_cases hmem : r.chunk_id ∈ acc.map Prod.fst
      · rw [if_pos hmem]
        simp only [decide_eq_true_eq]
        rw [if_neg (fun h => h hmem)]
      · rw [if_neg hmem]
        have hcong : (rest.map SearchResult.chunk_id).filter
            (fun i => decide (i ∉ (acc.map Prod.fst ++ [r.chunk_id]))) =
            (rest.map SearchResult.chunk_id).filter
              (fun i => decide (i ∉ acc.map Prod.fst)) := by
          refine List.filter_congr ?_
          intro i hi
          have hne : i ≠ r.chunk_id := fun h => hnd.1 (h ▸ hi)
          refine decide_eq_decide.mpr ?_
          constructor
          · exact fun hbig hia => hbig (List.mem_append.mpr (Or.inl hia))
          · intro hsmall hmem₂
            rcases List.mem_append.mp hmem₂ with h | h
            · exact hsmall h
            · exact hne (List.mem_singleton.mp h)
        rw [hcong]
        simp only [decide_eq_true_eq]
        rw [if_pos hmem]
        simp [List.append_assoc]

theorem dlookup_rrfVectorLoop_notmem (alpha rrf_k : ℚ) (l : List SearchResult)
    (cid : String) :
    cid ∉ l.map SearchResult.chunk_id →
    ∀ (rank : Nat) (acc : List FEntry),
      dlookup cid (rrfVectorLoop alpha rrf_k rank l acc) = dlookup cid acc := by
  induction l with
  | nil => intro _ rank acc; simp [rrfVectorLoop]
  | cons r rest ih =>
      intro hmem rank acc
      rw [List.map_cons, List.mem_cons] at hmem
      push_neg at hmem
      rw [rrfVectorLoop, ih hmem.2, dlookup_setEntry_ne _ _ _ _ _ hmem.1]

theorem dlookup_rrfVectorLoop_rank (alpha rrf_k : ℚ) (l : List SearchResult)
    (cid : String) (j : Nat) :
    (l.map SearchResult.chunk_id).Nodup →
    rankOf cid (l.map SearchResult.chunk_id) = some j →
    ∀ (rank : Nat) (acc : List FEntry),
      ∃ r, dlookup cid (rrfVectorLoop alpha rrf_k rank l acc) =
          some (alpha * (1 / (rrf_k + (rank : ℚ) + (j : ℚ) + 1)), r) ∧
        r ∈ l ∧ r.chunk_id = cid := by
  induction l generalizing j with
  | nil => intro _ hrank; simp [rankOf] at hrank
  | cons r rest ih =>
      intro hnd hrank rank acc
      rw [List.map_cons, List.nodup_cons] at hnd
      rw [List.map_cons, rankOf] at hrank
      by_cases hh : r.chunk_id = cid
      · rw [if_pos hh] at hrank
        obtain rfl := Option.some.inj hrank
        refine ⟨r, ?_, List.mem_cons_self r rest, hh⟩
        rw [rrfVectorLoop,
          dlookup_rrfVectorLoop_notmem alpha rrf_k rest cid
            (fun h => hnd.1 (hh ▸ h)) (rank + 1) _]
        subst hh
        rw [dlookup_setEntry_self]
        norm_num
      · rw [if_neg hh] at hrank
        rcases h₁ : rankOf cid (rest.map SearchResult.chunk_id) with _ | j'
        · rw [h₁] at hrank; simp at hrank
        · rw [h₁, Option.map_some'] at hrank
          obtain rfl := Option.some.inj hrank
          obtain ⟨r', hEq, hMem, hCid⟩ :=
            ih j' hnd.2 h₁ (rank + 1) (setEntry acc r.chunk_id
              (alpha * (1 / (rrf_k + (rank : ℚ) + 1))) r)
          have hden : rrf_k + ((rank + 1 : Nat) : ℚ) + (j' : ℚ) + 1 =
              rrf_k + (rank : ℚ) + ((j' + 1 : Nat) : ℚ) + 1 := by
            push_cast; ring
          rw [hden] at hEq
          refine ⟨r', ?_, List.mem_cons_of_mem r hMem, hCid⟩
          rw [rrfVectorLoop]
          exact hEq

theorem keys_rrfBm25Loop (alpha rrf_k : ℚ) (l : List SearchResult) :
    (l.map SearchResult.chunk_id).Nodup →
    ∀ (rank : Nat) (acc : List FEntry),
      (rrfBm25Loop alpha rrf_k rank l acc).map Prod.fst =
        acc.map Prod.fst ++
          (l.map SearchResult.chunk_id).filter
            (fun i => decide (i ∉ acc.map Prod.fst)) := by
  induction l with
  | nil => intro _ rank acc; simp [rrfBm25Loop]
  | cons r rest ih =>
      intro hnd rank acc
      rw [List.map_cons, List.nodup_cons] at hnd
      rw [rrfBm25Loop, ih hnd.2, keys_addEntry, List.map_cons, List.filter_cons]
      by_cases hmem : r.chunk_id ∈ acc.map Prod.fst
      · rw [if_pos hmem]
        simp only [decide_eq_true_eq]
        rw [if_neg (fun h => h hmem)]
      · rw [if_neg hmem]
        have hcong : (rest.map SearchResult.chunk_id).filter
            (fun i => decide (i ∉ (acc.map Prod.fst ++ [r.chunk_id]))) =
            (rest.map SearchResult.chunk_id).filter
              (fun i => decide (i ∉ acc.map Prod.fst)) := by
          refine List.filter_congr ?_
          intro i hi
          have hne : i ≠ r.chunk_id := fun h => hnd.1 (h ▸ hi)
          refine decide_eq_decide.mpr ?_
          constructor
          · exact fun hbig hia => hbig (List.mem_append.mpr (Or.inl hia))
          · intro hsmall hmem₂
            rcases List.mem_append.mp hmem₂ with h | h
            · exact hsmall h
            · exact hne (List.mem_singleton.mp h)
        rw [hcong]
        simp only [decide_eq_true_eq]
        rw [if_pos hmem]
        simp [List.append_assoc]

theorem dlookup_rrfBm25Loop_notmem (alpha rrf_k : ℚ) (l : List SearchResult)
    (cid : String) :
    cid ∉ l.map SearchResult.chunk_id →
    ∀ (rank : Nat) (acc : List FEntry),
      dlookup cid (rrfBm25Loop alpha rrf_k rank l acc) = dlookup cid acc := by
  induction l with
  | nil => intro _ rank acc; simp [rrfBm25Loop]
  | cons r rest ih =>
      intro hmem rank acc
      rw [List.map_cons, List.mem_cons] at hmem
      push_neg at hmem
      rw [rrfBm25Loop, ih hmem.2, dlookup_addEntry_ne _ _ _ _ _ hmem.1]

theorem dlookup_rrfBm25Loop_some (alpha rrf_k : ℚ) (l : List SearchResult)
    (cid : String) (j : Nat) :
    (l.map SearchResult.chunk_id).Nodup →
    rankOf cid (l.map SearchResult.chunk_id) = some j →
    ∀ (rank : Nat) (acc : List FEntry) (s₀ : ℚ) (c₀ : SearchResult),
      dlookup cid acc = some (s₀, c₀) →
      dlookup cid (rrfBm25Loop alpha rrf_k rank l acc) =
        some (s₀ + (1 - alpha) * (1 / (rrf_k + (rank : ℚ) + (j : ℚ) + 1)), c₀) := by
  induction l generalizing j with
  | nil => intro _ hrank; simp [rankOf] at hrank
  | cons r rest ih =>
      intro hnd hrank rank acc s₀ c₀ hacc
      rw [List.map_cons, List.nodup_cons] at hnd
      rw [List.map_cons, rankOf] at hrank
      by_cases hh : r.chunk_id = cid
      · rw [if_pos hh] at hrank
        obtain rfl := Option.some.inj hrank
        rw [rrfBm25Loop,
          dlookup_rrfBm25Loop_notmem alpha rrf_k rest cid
            (fun h => hnd.1 (hh ▸ h)) (rank + 1) _]
        subst hh
        rw [dlookup_addEntry_self_some acc r.chunk_id _ s₀ r c₀ hacc]
        norm_num
      · rw [if_neg hh] at hrank
        rcases h₁ : rankOf cid (rest.map SearchResult.chunk_id) with _ | j'
        · rw [h₁] at hrank; simp at hrank
        · rw [h₁, Option.map_some'] at hrank
          obtain rfl := Option.some.inj hrank
          have hden : rrf_k + ((rank + 1 : Nat) : ℚ) + (j' : ℚ) + 1 =
              rrf_k + (rank : ℚ) + ((j' + 1 : Nat) : ℚ) + 1 := by
            push_cast; ring
          rw [rrfBm25Loop, ← hden]
          exact ih j' hnd.2 h₁ (rank + 1) _ s₀ c₀
            (by rw [dlookup_addEntry_ne _ _ _ _ _ (fun h => hh h.symm)]
                exact hacc)

theorem dlookup_rrfBm25Loop_none (alpha rrf_k : ℚ) (l : List SearchResult)
    (cid : String) (j : Nat) :
    (l.map SearchResult.chunk_id).Nodup →
    rankOf cid (l.map SearchResult.chunk_id) = some j →
    ∀ (rank : Nat) (acc : List FEntry),
      dlookup cid acc = none →
      ∃ r, dlookup cid (rrfBm25Loop alpha rrf_k rank l acc) =
          some ((1 - alpha) * (1 / (rrf_k + (rank : ℚ) + (j : ℚ) + 1)), r) ∧
        r ∈ l ∧ r.chunk_id = cid := by
  induction l generalizing j with
  | nil => intro _ hrank; simp [rankOf] at hrank
  | cons r rest ih =>
      intro hnd hrank rank acc hacc
      rw [List.map_cons, List.nodup_cons] at hnd
      rw [List.map_cons, rankOf] at hrank
      by_cases hh : r.chunk_id = cid
      · rw [if_pos hh] at hrank
        obtain rfl := Option.some.inj hrank
        refine ⟨r, ?_, List.mem_cons_self r rest, hh⟩
        rw [rrfBm25Loop,
          dlookup_rrfBm25Loop_notmem alpha rrf_k rest cid
            (fun h => hnd.1 (hh ▸ h)) (rank + 1) _]
        subst hh
        rw [dlookup_addEntry_self_none acc r.chunk_id _ r hacc]
        norm_num
      · rw [if_neg hh] at hrank
        rcases h₁ : rankOf cid (rest.map SearchResult.chunk_id) with _ | j'
        · rw [h₁] at hrank; simp at hrank
        · rw [h₁, Option.map_some'] at hrank
          obtain rfl := Option.some.inj hrank
          obtain ⟨r', hEq, hMem, hCid⟩ := ih j' hnd.2 h₁ (rank + 1)
            (addEntry acc r.chunk_id ((1 - alpha) * (1 / (rrf_k + (rank : ℚ) + 1))) r)
            (by rw [dlookup_addEntry_ne _ _ _ _ _ (fun h => hh h.symm)]
                exact hacc)
          have hden : rrf_k + ((rank + 1 : Nat) : ℚ) + (j' : ℚ) + 1 =
              rrf_k + (rank : ℚ) + ((j' + 1 : Nat) : ℚ) + 1 := by
            push_cast; ring
          rw [hden] at hEq
          refine ⟨r', ?_, List.mem_cons_of_mem r hMem, hCid⟩
          rw [rrfBm25Loop]
          exact hEq

/-! ### Fused-dict characterization and the fusion theorem -/

theorem keys_fuseEntries (alpha rrf_k : ℚ) (vec bm : List SearchResult)
    (hv : (vec.map SearchResult.chunk_id).Nodup)
    (hb : (bm.map SearchResult.chunk_id).Nodup) :
    (fuseEntries alpha rrf_k vec bm).map Prod.fst =
      vec.map SearchResult.chunk_id ++
        (bm.map SearchResult.chunk_id).filter
          (fun i => decide (i ∉ vec.map SearchResult.chunk_id)) := by
  rw [fuseEntries, keys_rrfBm25Loop alpha rrf_k bm hb 0 _,
    keys_rrfVectorLoop alpha rrf_k vec hv 0 []]
  simp

theorem keys_fuseEntries_nodup (alpha rrf_k : ℚ) (vec bm : List SearchResult)
    (hv : (vec.map SearchResult.chunk_id).Nodup)
    (hb : (bm.map SearchResult.chunk_id).Nodup) :
    ((fuseEntries alpha rrf_k vec bm).map Prod.fst).Nodup := by
  rw [keys_fuseEntries alpha rrf_k vec bm hv hb]
  refine List.Nodup.append hv (hb.filter _) ?_
  intro a ha hafil
  exact of_decide_eq_true (List.mem_filter.mp hafil).2 ha

theorem score_fuseEntries (alpha rrf_k : ℚ) (vec bm : List SearchResult)
    (hv : (vec.map SearchResult.chunk_id).Nodup)
    (hb : (bm.map SearchResult.chunk_id).Nodup) :
    ∀ e ∈ fuseEntries alpha rrf_k vec bm,
      e.2.1 = rrfSpecScore alpha rrf_k vec bm e.1 := by
  intro e he
  have hlook : dlookup e.1 (fuseEntries alpha rrf_k vec bm) = some e.2 :=
    dlookup_of_mem_of_nodup _ e (keys_fuseEntries_nodup alpha rrf_k vec bm hv hb) he
  rw [fuseEntries] at hlook
  by_cases hvmem : e.1 ∈ vec.map SearchResult.chunk_id
  · obtain ⟨j₁, hj₁⟩ := rankOf_isSome_of_mem _ _ hvmem
    obtain ⟨r, hr, _, _⟩ := dlookup_rrfVectorLoop_rank alpha rrf_k vec e.1 j₁ hv hj₁ 0 []
    by_cases hbmem : e.1 ∈ bm.map SearchResult.chunk_id
    · obtain ⟨j₂, hj₂⟩ := rankOf_isSome_of_mem _ _ hbmem
      rw [dlookup_rrfBm25Loop_some alpha rrf_k bm e.1 j₂ hb hj₂ 0 _ _ _ hr] at hlook
      have h := congrArg Prod.fst (Option.some.inj hlook)
      rw [rrfSpecScore, rrfContribution, rrfContribution, hj₁, hj₂, ← h]
      push_cast
      ring
    · rw [dlookup_rrfBm25Loop_notmem alpha rrf_k bm e.1 hbmem 0 _, hr] at hlook
      have h := congrArg Prod.fst (Option.some.inj hlook)
      rw [rrfSpecScore, rrfContribution, rrfContribution, hj₁,
        (rankOf_eq_none_iff _ _).mpr hbmem, ← h]
      push_cast
      ring
  · have hvl := dlookup_rrfVectorLoop_notmem alpha rrf_k vec e.1 hvmem 0 []
    by_cases hbmem : e.1 ∈ bm.map SearchResult.chunk_id
    · obtain ⟨j₂, hj₂⟩ := rankOf_isSome_of_mem _ _ hbmem
      obtain ⟨r, hr, _, _⟩ := dlookup_rrfBm25Loop_none alpha rrf_k bm e.1 j₂ hb hj₂ 0 _
        (by rw [hvl]; rfl)
      rw [hr] at hlook
      have h := congrArg Prod.fst (Option.some.inj hlook)
      rw [rrfSpecScore, rrfContribution, rrfContribution,
        (rankOf_eq_none_iff _ _).mpr hvmem, hj₂, ← h]
      push_cast
      ring
    · exfalso
      have hmem : e.1 ∈ (fuseEntries alpha rrf_k vec bm).map Prod.fst :=
        List.mem_map.mpr ⟨e, he, rfl⟩
      rw [keys_fuseEntries alpha rrf_k vec bm hv hb] at hmem
      rcases List.mem_append.mp hmem with h | h
      · exact hvmem h
      · exact hbmem (List.mem_of_mem_filter h)

/-- C1: for every pair of ranked input lists (vector with weight `alpha`,
lexical with weight `1 - alpha`) and every `top_k ≥ 1`, the fused dict has
exactly one entry per distinct chunk_id, in first-appearance order (vector
list first, then lexical); every entry's fused score is the sum over the
source lists containing it of `wᵢ / (k_rrf + r)` with `r` the 1-based rank
(a chunk_id in both lists appears once with the contributions summed); and
the output of `_reciprocal_rank_fusion` is the `top_k` of these entries
sorted by fused score descending, the sort being a permutation that keeps
ties in first-appearance order (stability). -/
theorem rrf_fusion_correct (alpha rrf_k : ℚ) (vec bm : List SearchResult)
    (top_k : Nat) (hv : (vec.map SearchResult.chunk_id).Nodup)
    (hb : (bm.map SearchResult.chunk_id).Nodup) (_htop : 1 ≤ top_k) :
    ((fuseEntries alpha rrf_k vec bm).map Prod.fst =
        vec.map SearchResult.chunk_id ++
          (bm.map SearchResult.chunk_id).filter
            (fun i => decide (i ∉ vec.map SearchResult.chunk_id))) ∧
    ((fuseEntries alpha rrf_k vec bm).map Prod.fst).Nodup ∧
    (∀ e ∈ fuseEntries alpha rrf_k vec bm,
        e.2.1 = rrfSpecScore alpha rrf_k vec bm e.1) ∧
    reciprocal_rank_fusion alpha rrf_k vec bm top_k =
      ((sortDescBy (fun e : FEntry => e.2.1)
          (fuseEntries alpha rrf_k vec bm)).take top_k).map fusedResult ∧
    (sortDescBy (fun e : FEntry => e.2.1)
        (fuseEntries alpha rrf_k vec bm)).Pairwise
      (fun a b => b.2.1 ≤ a.2.1) ∧
    List.Perm (sortDescBy (fun e : FEntry => e.2.1)
        (fuseEntries alpha rrf_k vec bm)) (fuseEntries alpha rrf_k vec bm) ∧
    (∀ s : ℚ, (sortDescBy (fun e : FEntry => e.2.1)
          (fuseEntries alpha rrf_k vec bm)).filter
          (fun e => decide (e.2.1 = s)) =
        (fuseEntries alpha rrf_k vec bm).filter
          (fun e => decide (e.2.1 = s))) := by
  refine ⟨keys_fuseEntries alpha rrf_k vec bm hv hb,
    keys_fuseEntries_nodup alpha rrf_k vec bm hv hb,
    score_fuseEntries alpha rrf_k vec bm hv hb, rfl,
    sorted_sortDescBy _ _, perm_sortDescBy _ _, fun s => filter_sortDescBy _ _ s⟩

/-! Concrete sample data (spec §8's end-to-end corpus) used by witnesses. -/

def sampleA : SearchResult :=
  { chunk_id := "A", content := "score 15%", score := 9/10,
    source_file := "doc.pdf", page_number := 1, metadata := [] }

def sampleB : SearchResult :=
  { chunk_id := "B", content := "score 20%", score := 4/5,
    source_file := "doc.pdf", page_number := 2, metadata := [] }

def sampleC : SearchResult :=
  { chunk_id := "C", content := "unrelated", score := 1/10,
    source_file := "doc.pdf", page_number := 3, metadata := [] }

theorem rrf_fusion_correct_witness :
    (([sampleA, sampleB].map SearchResult.chunk_id).Nodup ∧
      ([sampleB, sampleA, sampleC].map SearchResult.chunk_id).Nodup ∧
      1 ≤ 2) ∧
    reciprocal_rank_fusion (1/2) 60 [sampleA, sampleB]
        [sampleB, sampleA, sampleC] 2 =
      ((sortDescBy (fun e : FEntry => e.2.1)
          (fuseEntries (1/2) 60 [sampleA, sampleB]
            [sampleB, sampleA, sampleC])).take 2).map fusedResult :=
  ⟨⟨by decide, by decide, by decide⟩,
    (rrf_fusion_correct (1/2) 60 [sampleA, sampleB] [sampleB, sampleA, sampleC]
      2 (by decide) (by decide) (by decide)).2.2.2.1⟩

/-! ## Reranker (`Reranker.rerank`, src/retrieval/reranker.py)

The external cross-encoder (`self.model.predict`) is a parameter
`ce : query → passage → score`.  The returned Bool records whether the
cross-encoder was invoked. -/

/-- `Reranker.rerank`: empty input short-circuits to `[]`; a candidate list
within `top_k` is returned unchanged without scoring; otherwise every
(query, content) pair is scored, sorted by score descending (Python's
stable `sorted`), and the first `top_k` candidates are returned. -/
def rerank (ce : String → String → ℚ) (query : String)
    (candidates : List SearchResult) (top_k : Nat) :
    List SearchResult × Bool :=
  if candidates.isEmpty then ([], false)
  else if candidates.length ≤ top_k then (candidates, false)
  else
    let pairs := candidates.map (fun c => (c, ce query c.content))
    let ranked := sortDescBy (fun p : SearchResult × ℚ => p.2) pairs
    ((ranked.take top_k).map Prod.fst, true)

/-- C4: when the candidate count is within `top_k`, `rerank` is the identity
and the cross-encoder is not invoked; when the list is longer, exactly
`top_k` candidates are returned, ordered by cross-encoder score descending,
and every returned candidate is one of the input records (so its stored
`score` field is untouched). -/
theorem rerank_correct (ce : String → String → ℚ) (query : String)
    (candidates : List SearchResult) (top_k : Nat) :
    (candidates.length ≤ top_k →
      rerank ce query candidates top_k = (candidates, false)) ∧
    (top_k < candidates.length →
      (rerank ce query candidates top_k).2 = true ∧
      (rerank ce query candidates top_k).1.length = top_k ∧
      (rerank ce query candidates top_k).1.Pairwise
        (fun a b => ce query b.content ≤ ce query a.content) ∧
      (∀ c ∈ (rerank ce query candidates top_k).1, c ∈ candidates)) := by
  constructor
  · intro hle
    by_cases hemp : candidates.isEmpty
    · rw [rerank, if_pos hemp, List.isEmpty_iff.mp hemp]
    · rw [rerank, if_neg hemp, if_pos hle]
  · intro hgt
    have hemp : ¬candidates.isEmpty := by
      intro h
      rw [List.isEmpty_iff.mp h] at hgt
      simp at hgt
    have hle : ¬candidates.length ≤ top_k := not_le.mpr hgt
    rw [rerank, if_neg hemp, if_neg hle]
    set pairs := candidates.map (fun c => (c, ce query c.content)) with hpairs
    set ranked := sortDescBy (fun p : SearchResult × ℚ => p.2) pairs with hranked
    have hlen : ranked.length = candidates.length := by
      rw [hranked, length_sortDescBy, hpairs, List.length_map]
    have hmem_pairs : ∀ p ∈ ranked, p.2 = ce query p.1.content := by
      intro p hp
      have hp₂ : p ∈ pairs := (perm_sortDescBy _ _).mem_iff.mp hp
      obtain ⟨c, _, hc⟩ := List.mem_map.mp hp₂
      rw [← hc]
    refine ⟨rfl, ?_, ?_, ?_⟩
    · simp only [List.length_map, List.length_take, hlen]
      exact Nat.min_eq_left (le_of_lt hgt)
    · have hsorted : ranked.Pairwise (fun p q : SearchResult × ℚ => q.2 ≤ p.2) :=
        sorted_sortDescBy _ _
      have htake : (ranked.take top_k).Pairwise
          (fun p q : SearchResult × ℚ => q.2 ≤ p.2) :=
        hsorted.sublist (List.take_sublist top_k ranked)
      rw [List.pairwise_map]
      refine List.Pairwise.imp_of_mem ?_ htake
      intro p q hp hq hpq
      have hp₂ := hmem_pairs p ((List.take_sublist top_k ranked).mem hp)
      have hq₂ := hmem_pairs q ((List.take_sublist top_k ranked).mem hq)
      rw [← hp₂, ← hq₂]
      exact hpq
    · intro c hc
      obtain ⟨p, hp, hpc⟩ := List.mem_map.mp hc
      have hp₂ : p ∈ pairs :=
        (perm_sortDescBy _ _).mem_iff.mp ((List.take_sublist top_k ranked).mem hp)
      obtain ⟨c₀, hc₀, hcp⟩ := List.mem_map.mp hp₂
      rw [← hpc, ← hcp]
      exact hc₀

theorem rerank_correct_witness :
    ((1 : Nat) ≤ 2 ∧
      rerank (fun _ c => if c = "score 20%" then 5 else 1) "q" [sampleA] 2 =
        ([sampleA], false)) ∧
    ((2 : Nat) < 3 ∧
      (rerank (fun _ c => if c = "score 20%" then 5 else 1) "q"
          [sampleA, sampleB, sampleC] 2).1.length = 2) :=
  ⟨⟨by decide,
      (rerank_correct (fun _ c => if c = "score 20%" then 5 else 1) "q"
        [sampleA] 2).1 (by decide)⟩,
    ⟨by decide,
      ((rerank_correct (fun _ c => if c = "score 20%" then 5 else 1) "q"
        [sampleA, sampleB, sampleC] 2).2 (by decide)).2.1⟩⟩

/-! ## Hybrid retrieval (`HybridRetriever.retrieve`)

`vecS` models `self._vector_search` (embed + vector store search), `bmS`
models `self._bm25_search`; both take the query and the requested result
count.  The source calls them sequentially (no concurrency primitive is
involved).  The event log records each search request's count and whether
the cross-encoder ran. -/

inductive REvent where
  | vecSearch (k : Nat) : REvent
  | bmSearch (k : Nat) : REvent
  | ceInvoked : REvent

/-- `RetrievalResult` dataclass from src/retrieval/retriever.py. -/
structure RetrievalResult where
  query : String
  results : List SearchResult
  metadata : List (String × JVal)

/-- The fused candidate list built inside `HybridRetriever.retrieve`
(step 3): RRF over the two `top_k*2` fetches, truncated to
`top_k * fetch_multiplier` with `fetch_multiplier = 4 if use_rerank else 2`. -/
def hybridMerged (alpha rrf_k : ℚ) (use_rerank : Bool)
    (vecS bmS : String → Nat → List SearchResult)
    (query : String) (top_k : Nat) : List SearchResult :=
  reciprocal_rank_fusion alpha rrf_k
    (vecS query (top_k * 2)) (bmS query (top_k * 2))
    (top_k * (if use_rerank then 4 else 2))

/-- `HybridRetriever.retrieve`: fetch `top_k*2` from each source, fuse via
RRF, then rerank to `top_k` (when `use_rerank`, in which case the
constructor has installed a reranker) or truncate to `top_k`. -/
def hybridRetrieve (alpha rrf_k : ℚ) (use_rerank : Bool)
    (vecS bmS : String → Nat → List SearchResult)
    (ce : String → String → ℚ) (query : String) (top_k : Nat) :
    RetrievalResult × List REvent :=
  let merged_results := hybridMerged alpha rrf_k use_rerank vecS bmS query top_k
  let fin := if use_rerank then rerank ce query merged_results top_k
             else (merged_results.take top_k, false)
  ({ query := query,
     results := fin.1,
     metadata := [("retriever", JVal.jstr "hybrid"),
       ("top_k", JVal.jnum (top_k : ℚ)), ("alpha", JVal.jnum alpha),
       ("use_rerank", JVal.jbool use_rerank)] },
   [REvent.vecSearch (top_k * 2), REvent.bmSearch (top_k * 2)] ++
     (if fin.2 then [REvent.ceInvoked] else []))

/-- C7: Hybrid retrieval requests `top_k*2` candidates from each of the two
searches, fuses them into at most `top_k*4` candidates when reranking is
enabled and at most `top_k*2` when disabled, and with reranking disabled
returns exactly `min top_k fused_candidate_count` results. -/
theorem hybrid_retrieve_sizes (alpha rrf_k : ℚ) (use_rerank : Bool)
    (vecS bmS : String → Nat → List SearchResult)
    (ce : String → String → ℚ) (query : String) (top_k : Nat)
    (_htop : 1 ≤ top_k) :
    ((hybridRetrieve alpha rrf_k use_rerank vecS bmS ce query top_k).2.filterMap
        (fun e => match e with | REvent.vecSearch k => some k | _ => none) =
      [top_k * 2]) ∧
    ((hybridRetrieve alpha rrf_k use_rerank vecS bmS ce query top_k).2.filterMap
        (fun e => match e with | REvent.bmSearch k => some k | _ => none) =
      [top_k * 2]) ∧
    (hybridMerged alpha rrf_k use_rerank vecS bmS query top_k).length ≤
      top_k * (if use_rerank then 4 else 2) ∧
    (use_rerank = false →
      (hybridRetrieve alpha rrf_k use_rerank vecS bmS ce query top_k).1.results.length =
        min top_k (hybridMerged alpha rrf_k use_rerank vecS bmS query top_k).length) := by
  refine ⟨?_, ?_, ?_, ?_⟩
  · rw [hybridRetrieve]
    cases hif : (if use_rerank
        then rerank ce query (hybridMerged alpha rrf_k use_rerank vecS bmS query top_k) top_k
        else ((hybridMerged alpha rrf_k use_rerank vecS bmS query top_k).take top_k, false)).2 <;>
      simp [List.filterMap_append]
  · rw [hybridRetrieve]
    cases hif : (if use_rerank
        then rerank ce query (hybridMerged alpha rrf_k use_rerank vecS bmS query top_k) top_k
        else ((hybridMerged alpha rrf_k use_rerank vecS bmS query top_k).take top_k, false)).2 <;>
      simp [List.filterMap_append]
  · rw [hybridMerged, reciprocal_rank_fusion]
    rw [List.length_map, List.length_take]
    exact Nat.min_le_left _ _
  · intro hur
    subst hur
    rw [hybridRetrieve]
    simp only [if_false, Bool.false_eq_true]
    exact List.length_take _ _

theorem hybrid_retrieve_sizes_witness :
    (1 : Nat) ≤ 1 ∧
    (hybridRetrieve (1/2) 60 false (fun _ _ => [sampleA])
        (fun _ _ => [sampleB]) (fun _ _ => 0) "q" 1).1.results.length =
      min 1 (hybridMerged (1/2) 60 false (fun _ _ => [sampleA])
        (fun _ _ => [sampleB]) "q" 1).length :=
  ⟨by decide,
    (hybrid_retrieve_sizes (1/2) 60 false (fun _ _ => [sampleA])
      (fun _ _ => [sampleB]) (fun _ _ => 0) "q" 1 (by decide)).2.2.2 rfl⟩

/-! ## Candidate merges and deduplication

Three sites in the source deduplicate candidate lists by `chunk_id`:
- `AgenticRAG._handle_simple_query` (dict loop keeping the strictly higher
  score),
- `MultiQueryRetriever.retrieve` (the same dict loop), and
- `AgenticRAG._handle_complex_query`
  (`{s.chunk_id: s for s in all_sources}` — plain dict comprehension). -/

/-- One iteration of the max-score merge loop:
`if cid not in d: d[cid] = s  elif s.score > d[cid].score: d[cid] = s`. -/
def bestUpsert (acc : List (String × SearchResult)) (s : SearchResult) :
    List (String × SearchResult) :=
  match acc with
  | [] => [(s.chunk_id, s)]
  | (k, c) :: rest =>
      if k = s.chunk_id then
        if s.score > c.score then (k, s) :: rest else (k, c) :: rest
      else (k, c) :: bestUpsert rest s

/-- The full max-score merge loop over a stream of candidates
(`_handle_simple_query` lines 218-225 / `MultiQueryRetriever.retrieve`
lines 330-335). -/
def mergeBestList (acc : List (String × SearchResult)) :
    List SearchResult → List (String × SearchResult)
  | [] => acc
  | s :: rest => mergeBestList (bestUpsert acc s) rest

/-- One write of the dict comprehension `{s.chunk_id: s for s in l}`:
the value for an existing key is overwritten in place — the last
occurrence wins, scores are never compared. -/
def lastUpsert (acc : List (String × SearchResult)) (s : SearchResult) :
    List (String × SearchResult) :=
  match acc with
  | [] => [(s.chunk_id, s)]
  | (k, c) :: rest =>
      if k = s.chunk_id then (k, s) :: rest
      else (k, c) :: lastUpsert rest s

/-- The dict comprehension of `_handle_complex_query` line 293. -/
def dedupLastList (acc : List (String × SearchResult)) :
    List SearchResult → List (String × SearchResult)
  | [] => acc
  | s :: rest => dedupLastList (lastUpsert acc s) rest

/-- The last occurrence in `l` whose chunk_id is `cid`. -/
def lastOcc (cid : String) : List SearchResult → Option SearchResult
  | [] => none
  | s :: rest =>
      match lastOcc cid rest with
      | some t => some t
      | none => if s.chunk_id = cid then some s else none

theorem keys_bestUpsert (acc : List (String × SearchResult)) (s : SearchResult) :
    (bestUpsert acc s).map Prod.fst =
      if s.chunk_id ∈ acc.map Prod.fst then acc.map Prod.fst
      else acc.map Prod.fst ++ [s.chunk_id] := by
  induction acc with
  | nil => simp [bestUpsert]
  | cons e rest ih =>
      obtain ⟨k, c⟩ := e
      by_cases h : k = s.chunk_id
      · subst h
        by_cases h₂ : s.score > c.score <;>
          simp [bestUpsert, h₂, List.mem_cons]
      · simp only [bestUpsert, if_neg h, List.map_cons, ih]
        by_cases h₂ : s.chunk_id ∈ rest.map Prod.fst
        · rw [if_pos h₂, if_pos (List.mem_cons.mpr (Or.inr h₂))]
        · rw [if_neg h₂, if_neg (fun h₃ => h₂
            ((List.mem_cons.mp h₃).resolve_left (fun h₄ => h h₄.symm)))]
          simp

theorem keys_lastUpsert (acc : List (String × SearchResult)) (s : SearchResult) :
    (lastUpsert acc s).map Prod.fst =
      if s.chunk_id ∈ acc.map Prod.fst then acc.map Prod.fst
      else acc.map Prod.fst ++ [s.chunk_id] := by
  induction acc with
  | nil => simp [lastUpsert]
  | cons e rest ih =>
      obtain ⟨k, c⟩ := e
      by_cases h : k = s.chunk_id
      · subst h
        simp [lastUpsert, List.mem_cons]
      · simp only [lastUpsert, if_neg h, List.map_cons, ih]
        by_cases h₂ : s.chunk_id ∈ rest.map Prod.fst
        · rw [if_pos h₂, if_pos (List.mem_cons.mpr (Or.inr h₂))]
        · rw [if_neg h₂, if_neg (fun h₃ => h₂
            ((List.mem_cons.mp h₃).resolve_left (fun h₄ => h h₄.symm)))]
          simp

theorem dlookup_lastUpsert_self (acc : List (String × SearchResult))
    (s : SearchResult) : dlookup s.chunk_id (lastUpsert acc s) = some s := by
  induction acc with
  | nil => simp [lastUpsert, dlookup]
  | cons e rest ih =>
      obtain ⟨k, c⟩ := e
      by_cases h : k = s.chunk_id <;> simp [lastUpsert, dlookup, h, ih]

theorem dlookup_lastUpsert_ne (acc : List (String × SearchResult))
    (s : SearchResult) (k₂ : String) (h : k₂ ≠ s.chunk_id) :
    dlookup k₂ (lastUpsert acc s) = dlookup k₂ acc := by
  induction acc with
  | nil =>
      simp only [lastUpsert, dlookup]
      rw [if_neg (fun h₁ => h h₁.symm)]
  | cons e rest ih =>
      obtain ⟨k, c⟩ := e
      by_cases h₁ : k = s.chunk_id
      · subst h₁
        simp only [lastUpsert, if_pos rfl, dlookup]
        rw [if_neg (fun h₂ => h h₂.symm), if_neg (fun h₂ => h h₂.symm)]
      · simp only [lastUpsert, if_neg h₁, dlookup]
        by_cases h₂ : k = k₂
        · rw [if_pos h₂, if_pos h₂]
        · rw [if_neg h₂, if_neg h₂, ih]

theorem dlookup_dedupLastList (l : List SearchResult) :
    ∀ (acc : List (String × SearchResult)) (cid : String),
      dlookup cid (dedupLastList acc l) =
        match lastOcc cid l with
        | some t => some t
        | none => dlookup cid acc := by
  induction l with
  | nil => intro acc cid; simp [dedupLastList, lastOcc]
  | cons s rest ih =>
      intro acc cid
      rw [dedupLastList, ih, lastOcc]
      rcases h : lastOcc cid rest with _ | t
      · simp only []
        by_cases h₂ : s.chunk_id = cid
        · rw [if_pos h₂, ← h₂, dlookup_lastUpsert_self]
        · rw [if_neg h₂, dlookup_lastUpsert_ne acc s cid (fun h₃ => h₂ h₃.symm)]
      · simp only []

theorem keys_dedupLastList (l : List SearchResult) :
    ∀ (acc : List (String × SearchResult)), (acc.map Prod.fst).Nodup →
      ((dedupLastList acc l).map Prod.fst).Nodup := by
  induction l with
  | nil => intro acc h; exact h
  | cons s rest ih =>
      intro acc h
      rw [dedupLastList]
      refine ih _ ?_
      rw [keys_lastUpsert]
      by_cases h₂ : s.chunk_id ∈ acc.map Prod.fst
      · rw [if_pos h₂]; exact h
      · rw [if_neg h₂]
        exact List.Nodup.append h (List.nodup_singleton _)
          (fun a ha hb => h₂ ((List.mem_singleton.mp hb) ▸ ha))

theorem bestUpsert_spec (acc : List (String × SearchResult)) (s : SearchResult)
    (hnd : (acc.map Prod.fst).Nodup) :
    ∀ p ∈ bestUpsert acc s,
      (p ∈ acc ∧ (p.1 = s.chunk_id → s.score ≤ p.2.score)) ∨
      (p = (s.chunk_id, s) ∧
        ∀ q ∈ acc, q.1 = s.chunk_id → q.2.score ≤ s.score) := by
  induction acc with
  | nil =>
      intro p hp
      rw [bestUpsert] at hp
      right
      exact ⟨List.mem_singleton.mp hp, fun q hq => absurd hq (List.not_mem_nil q)⟩
  | cons e rest ih =>
      obtain ⟨k, c⟩ := e
      rw [List.map_cons, List.nodup_cons] at hnd
      intro p hp
      by_cases h : k = s.chunk_id
      · subst h
        have hknot : ∀ q ∈ rest, q.1 ≠ s.chunk_id := by
          intro q hq hqk
          exact hnd.1 (hqk ▸ List.mem_map.mpr ⟨q, hq, rfl⟩)
        by_cases hsc : s.score > c.score
        · rw [bestUpsert, if_pos rfl, if_pos hsc] at hp
          rcases List.mem_cons.mp hp with hp | hp
          · right
            refine ⟨hp, ?_⟩
            intro q hq hqk
            rcases List.mem_cons.mp hq with hq | hq
            · rw [hq]; exact le_of_lt hsc
            · exact absurd hqk (hknot q hq)
          · left
            exact ⟨List.mem_cons.mpr (Or.inr hp),
              fun hpk => absurd hpk (hknot p hp)⟩
        · rw [bestUpsert, if_pos rfl, if_neg hsc] at hp
          rcases List.mem_cons.mp hp with hp | hp
          · left
            refine ⟨List.mem_cons.mpr (Or.inl hp), ?_⟩
            intro _
            rw [hp]
            exact not_lt.mp hsc
          · left
            exact ⟨List.mem_cons.mpr (Or.inr hp),
              fun hpk => absurd hpk (hknot p hp)⟩
      · rw [bestUpsert, if_neg h] at hp
        rcases List.mem_cons.mp hp with hp | hp
        · left
          refine ⟨List.mem_cons.mpr (Or.inl hp), ?_⟩
          intro hpk
          exact absurd (hp ▸ hpk : (k, c).1 = s.chunk_id) h
        · rcases ih hnd.2 p hp with ⟨hpa, hguard⟩ | ⟨hpe, hmax⟩
          · exact Or.inl ⟨List.mem_cons.mpr (Or.inr hpa), hguard⟩
          · right
            refine ⟨hpe, ?_⟩
            intro q hq hqk
            rcases List.mem_cons.mp hq with hq | hq
            · exact absurd (hq ▸ hqk : (k, c).1 = s.chunk_id) h
            · exact hmax q hq hqk

theorem mergeBestList_invariant (l : List SearchResult) :
    ∀ (acc : List (String × SearchResult)) (seen : List SearchResult),
      (acc.map Prod.fst).Nodup →
      (∀ p ∈ acc, p.2.chunk_id = p.1) →
      (∀ p ∈ acc, p.2 ∈ seen) →
      (∀ p ∈ acc, ∀ t ∈ seen, t.chunk_id = p.1 → t.score ≤ p.2.score) →
      (∀ t ∈ seen, t.chunk_id ∈ acc.map Prod.fst) →
      ((mergeBestList acc l).map Prod.fst).Nodup ∧
      (∀ p ∈ mergeBestList acc l, p.2.chunk_id = p.1) ∧
      (∀ p ∈ mergeBestList acc l, p.2 ∈ seen ++ l) ∧
      (∀ p ∈ mergeBestList acc l, ∀ t ∈ seen ++ l, t.chunk_id = p.1 →
        t.score ≤ p.2.score) ∧
      (∀ t ∈ seen ++ l, t.chunk_id ∈ (mergeBestList acc l).map Prod.fst) := by
  induction l with
  | nil =>
      intro acc seen h1 h2 h3 h4 h5
      rw [mergeBestList, List.append_nil]
      exact ⟨h1, h2, h3, h4, h5⟩
  | cons s rest ih =>
      intro acc seen h1 h2 h3 h4 h5
      rw [mergeBestList]
      have key := keys_bestUpsert acc s
      have hspec := bestUpsert_spec acc s h1
      have h1' : ((bestUpsert acc s).map Prod.fst).Nodup := by
        rw [key]
        by_cases hmem : s.chunk_id ∈ acc.map Prod.fst
        · rw [if_pos hmem]; exact h1
        · rw [if_neg hmem]
          exact List.Nodup.append h1 (List.nodup_singleton _)
            (fun a ha hb => hmem ((List.mem_singleton.mp hb) ▸ ha))
      have h2' : ∀ p ∈ bestUpsert acc s, p.2.chunk_id = p.1 := by
        intro p hp
        rcases hspec p hp with ⟨hpa, _⟩ | ⟨hpe, _⟩
        · exact h2 p hpa
        · rw [hpe]
      have h3' : ∀ p ∈ bestUpsert acc s, p.2 ∈ seen ++ [s] := by
        intro p hp
        rcases hspec p hp with ⟨hpa, _⟩ | ⟨hpe, _⟩
        · exact List.mem_append.mpr (Or.inl (h3 p hpa))
        · rw [hpe]
          exact List.mem_append.mpr (Or.inr (List.mem_singleton.mpr rfl))
      have h4' : ∀ p ∈ bestUpsert acc s, ∀ t ∈ seen ++ [s],
          t.chunk_id = p.1 → t.score ≤ p.2.score := by
        intro p hp t ht htp
        rcases List.mem_append.mp ht with ht | ht
        · rcases hspec p hp with ⟨hpa, _⟩ | ⟨hpe, hmax⟩
          · exact h4 p hpa t ht htp
          · subst hpe
            obtain ⟨q, hq, hq₁⟩ := List.mem_map.mp (h5 t ht)
            have htq : t.score ≤ q.2.score := h4 q hq t ht hq₁.symm
            have hqs : q.2.score ≤ s.score := hmax q hq (by rw [hq₁, htp])
            exact le_trans htq hqs
        · have hts := List.mem_singleton.mp ht
          subst hts
          rcases hspec p hp with ⟨_, hguard⟩ | ⟨hpe, _⟩
          · exact hguard htp.symm
          · rw [hpe]
      have h5' : ∀ t ∈ seen ++ [s],
          t.chunk_id ∈ (bestUpsert acc s).map Prod.fst := by
        intro t ht
        rw [key]
        by_cases hmem : s.chunk_id ∈ acc.map Prod.fst
        · rw [if_pos hmem]
          rcases List.mem_append.mp ht with ht | ht
          · exact h5 t ht
          · rw [List.mem_singleton.mp ht]; exact hmem
        · rw [if_neg hmem]
          rcases List.mem_append.mp ht with ht | ht
          · exact List.mem_append.mpr (Or.inl (h5 t ht))
          · rw [List.mem_singleton.mp ht]
            exact List.mem_append.mpr (Or.inr (List.mem_singleton.mpr rfl))
      have hres := ih (bestUpsert acc s) (seen ++ [s]) h1' h2' h3' h4' h5'
      rw [List.append_assoc, List.singleton_append] at hres
      exact hres

/-- `MultiQueryRetriever.retrieve`: `generate_queries` returns only the
original query (see its TODO comment); each query is searched against the
vector store (`vecS`), results are merged keeping the max score per
chunk_id, sorted by score descending (stable), and truncated to `top_k`. -/
def multiQueryRetrieve (vecS : String → Nat → List SearchResult)
    (query : String) (top_k : Nat) : RetrievalResult :=
  let queries := [query]
  let all_results :=
    mergeBestList [] ((queries.map (fun q => vecS q top_k)).flatten)
  let sorted_results :=
    sortDescBy (fun s : SearchResult => s.score) (all_results.map Prod.snd)
  { query := query,
    results := sorted_results.take top_k,
    metadata := [("retriever", JVal.jstr "multi_query"),
      ("num_queries", JVal.jnum (queries.length : ℚ)),
      ("top_k", JVal.jnum (top_k : ℚ))] }

/-- A copy of the sample chunk A with a lower score, as returned by a second
sub-query in the decompose path. -/
def sampleA_low : SearchResult := { sampleA with score := 1/2 }

/-- C3 counterexample: in the decompose-path deduplication
(`{s.chunk_id: s for s in all_sources}`), chunk "A" is seen with scores
9/10 and then 1/2, and the retained entry has score 1/2 — the LAST
occurrence, not the one with the highest score seen. -/
theorem merge_dedup_counterexample :
    (dedupLastList [] [sampleA, sampleA_low]).map (fun p => (p.1, p.2.score)) =
      [("A", 1/2)] ∧
    sampleA.chunk_id = sampleA_low.chunk_id ∧
    sampleA_low.score < sampleA.score := by
  refine ⟨?_, rfl, by norm_num [sampleA, sampleA_low]⟩
  rfl

/-- C3 (amended): at the simple-path merge and the MultiQuery merge, the
retained entry per chunk_id is one of the seen occurrences and its score is
the highest seen for that chunk_id, with no duplicate chunk_ids in the
result; at the decompose-path deduplication the retained entry is the LAST
occurrence for its chunk_id (scores are never compared), again with no
duplicate chunk_ids. -/
theorem merge_dedup_correct (l : List SearchResult) :
    ((mergeBestList [] l).map Prod.fst).Nodup ∧
    (∀ p ∈ mergeBestList [] l, p.2 ∈ l ∧ p.2.chunk_id = p.1 ∧
      ∀ t ∈ l, t.chunk_id = p.1 → t.score ≤ p.2.score) ∧
    (∀ t ∈ l, t.chunk_id ∈ (mergeBestList [] l).map Prod.fst) ∧
    ((dedupLastList [] l).map Prod.fst).Nodup ∧
    (∀ cid : String, dlookup cid (dedupLastList [] l) = lastOcc cid l) ∧
    (∀ (q : String) (k : Nat),
      (multiQueryRetrieve (fun _ _ => l) q k).results =
        (sortDescBy (fun s : SearchResult => s.score)
          ((mergeBestList [] l).map Prod.snd)).take k) := by
  obtain ⟨i1, i2, i3, i4, i5⟩ := mergeBestList_invariant l [] []
    (by simp) (by simp) (by simp) (by simp) (by simp)
  refine ⟨i1, ?_, ?_, keys_dedupLastList l [] (by simp), ?_, ?_⟩
  · intro p hp
    exact ⟨by simpa using i3 p hp, i2 p hp,
      fun t ht htp => i4 p hp t (by simpa using ht) htp⟩
  · intro t ht
    exact i5 t (by simpa using ht)
  · intro cid
    rw [dlookup_dedupLastList l [] cid]
    rcases h : lastOcc cid l with _ | t
    · rfl
    · rfl
  · intro q k
    rw [multiQueryRetrieve]
    simp

theorem merge_dedup_correct_witness :
    ((mergeBestList [] [sampleA, sampleA_low]).map Prod.fst).Nodup ∧
    dlookup "A" (dedupLastList [] [sampleA, sampleA_low]) =
      lastOcc "A" [sampleA, sampleA_low] :=
  ⟨(merge_dedup_correct [sampleA, sampleA_low]).1,
    (merge_dedup_correct [sampleA, sampleA_low]).2.2.2.2.1 "A"⟩

/-! ## Agentic query controller (`AgenticRAG`, src/rag/agentic_rag.py)

The injected LLM client is a stub `llm : Nat → LLMOut` giving the response
of the n-th `generate` call made while serving one query.  `content` is the
raw response text and `parsedJson` is the observable result of Python's
`json.loads` on that text (`none` when it raises `JSONDecodeError`); the
external JSON parser is modelled by its result, not re-implemented.  Prompt
texts are out of scope (spec §1), so the call log records call sites, not
prompt strings.  Exceptions that the source does not catch are modelled by
`Except.error`.  The injected retriever is a stub
`retr : query → top_k → results` (the source reads
`retriever.retrieve(q, top_k=...).results`). -/

structure LLMOut where
  content : String
  parsedJson : Option JVal
  usage : JVal

inductive CallKind where
  | analysis : CallKind
  | rewrite : CallKind
  | answer : CallKind
  | synthesis : CallKind
  | reflection : CallKind
  | improvement : CallKind
deriving DecidableEq

inductive PyErr where
  | attributeError : PyErr
  | typeError : PyErr
deriving DecidableEq

/-- `QueryType` enum. -/
inductive QueryType where
  | simple : QueryType
  | complex : QueryType
deriving DecidableEq

/-- `SearchStrategy` enum. -/
inductive SearchStrategy where
  | direct : SearchStrategy
  | decompose : SearchStrategy
  | iterative : SearchStrategy
deriving DecidableEq

/-- `QueryAnalysis` dataclass. -/
structure QueryAnalysis where
  query_type : QueryType
  search_strategy : SearchStrategy
  sub_queries : List String
  reasoning : String

/-- `ReflectionResult` dataclass (scores are JSON numbers; Python ints and
floats are both rationals here). -/
structure ReflectionResult where
  relevance : ℚ
  accuracy : ℚ
  completeness : ℚ
  needs_improvement : Bool
  improvement_suggestions : String

/-- `RAGResponse` dataclass from src/rag/base.py (the `timestamp` field is
wall-clock time and is not modelled). -/
structure RAGResponse where
  question : String
  answer : String
  sources : List SearchResult
  metadata : List (String × JVal)

/-- `dict.get(key, default)` on a parsed JSON object. -/
def jget (fields : List (String × JVal)) (key : String) (default : JVal) : JVal :=
  match dlookup key fields with
  | some v => v
  | none => default

/-- Python truthiness of a parsed JSON value (`not x`). -/
def jTruthy : JVal → Bool
  | JVal.jnull => false
  | JVal.jbool b => b
  | JVal.jnum q => decide (q ≠ 0)
  | JVal.jstr s => decide (s ≠ "")
  | JVal.jarr xs => !xs.isEmpty
  | JVal.jobj fs => !fs.isEmpty

/-- A JSON value used where the source expects str.  Python stores the raw
value and only ever renders it into prompt text (whose wording is out of
scope); non-strings are rendered as the empty string here. -/
def jText : JVal → String
  | JVal.jstr s => s
  | _ => ""

/-- A JSON value used where the source expects a list of query strings. -/
def jTextList : JVal → List String
  | JVal.jarr xs => xs.map jText
  | _ => []

/-- A JSON value used in arithmetic: numbers, and bools (Python's `bool` is
an `int` subtype, so `True` behaves as 1); anything else raises `TypeError`
when the caller computes with it. -/
def jAsNum : JVal → Option ℚ
  | JVal.jnum q => some q
  | JVal.jbool b => some (if b then 1 else 0)
  | _ => none

/-- `QueryType(value)`: raises ValueError unless the value is one of the
enum's strings. -/
def parseQueryType : JVal → Option QueryType
  | JVal.jstr "simple" => some QueryType.simple
  | JVal.jstr "complex" => some QueryType.complex
  | _ => none

/-- `SearchStrategy(value)`. -/
def parseSearchStrategy : JVal → Option SearchStrategy
  | JVal.jstr "direct" => some SearchStrategy.direct
  | JVal.jstr "decompose" => some SearchStrategy.decompose
  | JVal.jstr "iterative" => some SearchStrategy.iterative
  | _ => none

/-- The fixed fallback of `_analyze_query` on parse failure. -/
def defaultAnalysis : QueryAnalysis :=
  { query_type := QueryType.simple, search_strategy := SearchStrategy.direct,
    sub_queries := [], reasoning := "Parse error, defaulting to simple" }

/-- Field extraction of `_analyze_query` from a parsed JSON object: `.get`
with the documented defaults, then the enum constructors (whose ValueError
is caught by the source and mapped to the fixed default). -/
def parseAnalysisObj (fields : List (String × JVal)) : Option QueryAnalysis :=
  match parseQueryType (jget fields "query_type" (JVal.jstr "simple")),
      parseSearchStrategy (jget fields "search_strategy" (JVal.jstr "direct")) with
  | some qt, some ss =>
      some
        { query_type := qt, search_strategy := ss,
          sub_queries := jTextList (jget fields "sub_queries" (JVal.jarr [])),
          reasoning := jText (jget fields "reasoning" (JVal.jstr "")) }
  | _, _ => none

/-- One `llm_client.generate` call: consume the next stubbed response and
log the call site. -/
def genCall (llm : Nat → LLMOut) (log : List CallKind) (k : CallKind) :
    LLMOut × List CallKind :=
  (llm log.length, log ++ [k])

/-- `AgenticRAG._analyze_query`.  `json.loads` failure and enum ValueError
are caught and yield the fixed default; a parsed non-object reaches
`result.get` and raises an uncaught AttributeError. -/
def analyzeStep (llm : Nat → LLMOut) (log : List CallKind)
    (_question : String) : Except PyErr (QueryAnalysis × List CallKind) :=
  let p := genCall llm log CallKind.analysis
  match p.1.parsedJson with
  | none => Except.ok (defaultAnalysis, p.2)
  | some (JVal.jobj fields) =>
      match parseAnalysisObj fields with
      | some qa => Except.ok (qa, p.2)
      | none => Except.ok (defaultAnalysis, p.2)
  | some _ => Except.error PyErr.attributeError

/-- `AgenticRAG._rewrite_query`: on `json.loads` failure return only the
original; on a parsed object, `[original_query] + result.get("rewritten_queries", [])`
(concatenating a non-list raises TypeError; `.get` on a parsed non-object
raises AttributeError — neither is caught there). -/
def rewriteStep (llm : Nat → LLMOut) (log : List CallKind)
    (original_query : String) : Except PyErr (List String × List CallKind) :=
  let p := genCall llm log CallKind.rewrite
  match p.1.parsedJson with
  | none => Except.ok ([original_query], p.2)
  | some (JVal.jobj fields) =>
      match jget fields "rewritten_queries" (JVal.jarr []) with
      | JVal.jarr xs => Except.ok (original_query :: xs.map jText, p.2)
      | _ => Except.error PyErr.typeError
  | some _ => Except.error PyErr.attributeError

/-- The fixed "not found" answer string of the source. -/
def notFoundAnswer : String := "関連するドキュメントが見つかりませんでした。"

/-- `AgenticRAG._handle_simple_query`: rewrite the query, retrieve for every
query merging by max score, keep the `top_k` best by score; empty merge →
fixed not-found response (no generation call); otherwise one generation
call produces the answer. -/
def handleSimpleQuery (llm : Nat → LLMOut)
    (retr : String → Nat → List SearchResult) (top_k : Nat)
    (log : List CallKind) (question : String) :
    Except PyErr (RAGResponse × List CallKind) :=
  match rewriteStep llm log question with
  | Except.error e => Except.error e
  | Except.ok (queries, log) =>
    let all_sources :=
      mergeBestList [] ((queries.map (fun q => retr q top_k)).flatten)
    let sources := (sortDescBy (fun s : SearchResult => s.score)
      (all_sources.map Prod.snd)).take top_k
    if sources.isEmpty then
      Except.ok
        ({ question := question, answer := notFoundAnswer,
           sources := [],
           metadata := [("rag_type", JVal.jstr "AgenticRAG"),
             ("strategy", JVal.jstr "simple")] }, log)
    else
      let p := genCall llm log CallKind.answer
      Except.ok
        ({ question := question, answer := p.1.content,
           sources := sources,
           metadata := [("rag_type", JVal.jstr "AgenticRAG"),
             ("strategy", JVal.jstr "simple"),
             ("queries_used", JVal.jnum (queries.length : ℚ)),
             ("usage", p.1.usage)] }, p.2)

/-- The per-sub-query loop of `_handle_complex_query`: retrieve, accumulate
all sources, and generate a partial answer when sources exist. -/
def complexLoop (llm : Nat → LLMOut)
    (retr : String → Nat → List SearchResult) (top_k : Nat) :
    List String → List String → List SearchResult → List CallKind →
    List String × List SearchResult × List CallKind
  | [], sub_answers, all_sources, log => (sub_answers, all_sources, log)
  | sq :: rest, sub_answers, all_sources, log =>
      let sources := retr sq top_k
      let all_sources := all_sources ++ sources
      if sources.isEmpty then
        complexLoop llm retr top_k rest sub_answers all_sources log
      else
        let p := genCall llm log CallKind.answer
        complexLoop llm retr top_k rest
          (sub_answers ++ ["Q: " ++ sq ++ "\nA: " ++ p.1.content])
          all_sources p.2

/-- `AgenticRAG._handle_complex_query`: default sub-queries to the question
when the analysis list is empty, run the loop, synthesize when at least one
partial answer exists (else the fixed not-found answer), deduplicate the
accumulated sources via the dict comprehension, truncate to `top_k * 2`. -/
def handleComplexQuery (llm : Nat → LLMOut)
    (retr : String → Nat → List SearchResult) (top_k : Nat)
    (log : List CallKind) (question : String) (analysis : QueryAnalysis) :
    RAGResponse × List CallKind :=
  let sub_queries :=
    if analysis.sub_queries.isEmpty then [question] else analysis.sub_queries
  let t := complexLoop llm retr top_k sub_queries [] [] log
  let fin :=
    if t.1.isEmpty then (notFoundAnswer, t.2.2)
    else
      let p := genCall llm t.2.2 CallKind.synthesis
      (p.1.content, p.2)
  let unique_sources := (dedupLastList [] t.2.1).map Prod.snd
  ({ question := question, answer := fin.1,
     sources := unique_sources.take (top_k * 2),
     metadata := [("rag_type", JVal.jstr "AgenticRAG"),
       ("strategy", JVal.jstr "decompose"),
       ("sub_queries", JVal.jarr (sub_queries.map JVal.jstr)),
       ("sub_answers_count", JVal.jnum (t.1.length : ℚ))] }, fin.2)

/-- The neutral fallback of `_evaluate_response` on `json.loads` failure. -/
def neutralReflection : ReflectionResult :=
  { relevance := 3, accuracy := 3, completeness := 3,
    needs_improvement := false, improvement_suggestions := "" }

/-- Field extraction of `_evaluate_response` from a parsed JSON object.
A score field that is not a number (nor a bool) makes the caller's mean
computation raise TypeError (uncaught); `needs_improvement` is used only
via truthiness and never raises. -/
def parseReflectionObj (fields : List (String × JVal)) :
    Option ReflectionResult :=
  match jAsNum (jget fields "relevance" (JVal.jnum 3)),
      jAsNum (jget fields "accuracy" (JVal.jnum 3)),
      jAsNum (jget fields "completeness" (JVal.jnum 3)) with
  | some r, some a, some c =>
      some
        { relevance := r, accuracy := a, completeness := c,
          needs_improvement :=
            jTruthy (jget fields "needs_improvement" (JVal.jbool false)),
          improvement_suggestions :=
            jText (jget fields "improvement_suggestions" (JVal.jstr "")) }
  | _, _, _ => none

/-- `AgenticRAG._evaluate_response`: only `json.JSONDecodeError` is caught
(neutral fallback); `.get` on a parsed non-object raises AttributeError. -/
def evaluateStep (llm : Nat → LLMOut) (log : List CallKind)
    (_response : RAGResponse) :
    Except PyErr (ReflectionResult × List CallKind) :=
  let p := genCall llm log CallKind.reflection
  match p.1.parsedJson with
  | none => Except.ok (neutralReflection, p.2)
  | some (JVal.jobj fields) =>
      match parseReflectionObj fields with
      | some r => Except.ok (r, p.2)
      | none => Except.error PyErr.typeError
  | some _ => Except.error PyErr.attributeError

/-- `AgenticRAG._improve_response`: one generation call; the new response
keeps the question and sources, replaces the answer text with the LLM
output, and extends the metadata with `improved: True`. -/
def improveStep (llm : Nat → LLMOut) (log : List CallKind)
    (response : RAGResponse) (_suggestions : String) :
    RAGResponse × List CallKind :=
  let p := genCall llm log CallKind.improvement
  ({ question := response.question, answer := p.1.content,
     sources := response.sources,
     metadata := dictUpsert response.metadata "improved" (JVal.jbool true) },
   p.2)

/-- The `reflection` metadata dict written on loop exit
(`iterations = iteration + 1` and the final scores). -/
def reflectionMeta (iteration : Nat) (r : ReflectionResult) : JVal :=
  JVal.jobj [("iterations", JVal.jnum ((iteration : ℚ) + 1)),
    ("final_scores", JVal.jobj [("relevance", JVal.jnum r.relevance),
      ("accuracy", JVal.jnum r.accuracy),
      ("completeness", JVal.jnum r.completeness)])]

/-- The body of `_reflect_and_improve`'s `for iteration in range(max_iterations)`
loop, recursing on the remaining iteration count (`iteration` is the number
of completed iterations). -/
def reflectGo (llm : Nat → LLMOut) (quality_threshold : ℚ) (iteration : Nat) :
    Nat → RAGResponse → List CallKind →
    Except PyErr (RAGResponse × List CallKind)
  | 0, response, log => Except.ok (response, log)
  | Nat.succ n, response, log =>
      match evaluateStep llm log response with
      | Except.error e => Except.error e
      | Except.ok (reflection, log) =>
          if quality_threshold ≤
              (reflection.relevance + reflection.accuracy +
                reflection.completeness) / 3 ∨
              reflection.needs_improvement = false then
            let newmeta := dictUpsert response.metadata "reflection"
              (reflectionMeta iteration reflection)
            Except.ok ({ response with metadata := newmeta }, log)
          else
            let p := improveStep llm log response
              reflection.improvement_suggestions
            reflectGo llm quality_threshold (iteration + 1) n p.1 p.2

/-- `AgenticRAG._reflect_and_improve`. -/
def reflectAndImprove (llm : Nat → LLMOut) (max_iterations : Nat)
    (quality_threshold : ℚ) (response : RAGResponse) (log : List CallKind) :
    Except PyErr (RAGResponse × List CallKind) :=
  reflectGo llm quality_threshold 0 max_iterations response log

/-- `AgenticRAG.query`: analyze, dispatch on the strategy, then always run
the reflection loop on whatever response came back. -/
def agenticQuery (llm : Nat → LLMOut)
    (retr : String → Nat → List SearchResult) (top_k max_iterations : Nat)
    (quality_threshold : ℚ) (question : String) :
    Except PyErr (RAGResponse × List CallKind) :=
  match analyzeStep llm [] question with
  | Except.error e => Except.error e
  | Except.ok (analysis, log) =>
      match (if analysis.search_strategy = SearchStrategy.decompose then
          Except.ok (handleComplexQuery llm retr top_k log question analysis)
        else handleSimpleQuery llm retr top_k log question :
          Except PyErr (RAGResponse × List CallKind)) with
      | Except.error e => Except.error e
      | Except.ok (response, log) =>
          reflectAndImprove llm max_iterations quality_threshold response log

/-! ## Stub LLM outputs used in witnesses and counterexamples -/

/-- A response whose content is not valid JSON (`json.loads` raises). -/
def junkContent : LLMOut :=
  { content := "not json", parsedJson := none, usage := JVal.jnull }

/-- A response whose content is the well-formed JSON text `3`:
`json.loads("3")` returns the int 3 (not an object). -/
def numContent : LLMOut :=
  { content := "3", parsedJson := some (JVal.jnum 3), usage := JVal.jnull }

/-- A single valid JSON analysis object wrapped in a fenced code block;
`json.loads` fails on the whole content. -/
def fencedAnalysisContent : LLMOut :=
  { content :=
      "```json\n\x7b\"query_type\": \"complex\", \"search_strategy\": \"decompose\"\x7d\n```",
    parsedJson := none, usage := JVal.jnull }

/-- A single valid JSON reflection object wrapped in a fenced code block. -/
def fencedReflectionContent : LLMOut :=
  { content :=
      "```json\n\x7b\"needs_improvement\": true, \"relevance\": 1\x7d\n```",
    parsedJson := none, usage := JVal.jnull }

/-- A parsed reflection verdict requesting improvement with mean score 1. -/
def badVerdictOut : LLMOut :=
  { content := "", parsedJson := some (JVal.jobj
      [("relevance", JVal.jnum 1), ("accuracy", JVal.jnum 1),
       ("completeness", JVal.jnum 1),
       ("needs_improvement", JVal.jbool true)]),
    usage := JVal.jnull }

/-- A plain-text improved answer. -/
def improvedOut : LLMOut :=
  { content := "improved answer", parsedJson := none, usage := JVal.jnull }

/-- An arbitrary response record for reflection-site stubs. -/
def emptyResponse : RAGResponse :=
  { question := "q", answer := "a", sources := [], metadata := [] }

/-! ## C10: the improvement step is frame-preserving -/

/-- C10: `_improve_response` keeps the input's question and sources
unchanged; only the answer text (replaced by the LLM output) and the
metadata (the input's entries extended with `improved: True`) change, so
the candidates supporting the answer are never altered by improvement. -/
theorem improve_preserves_frame (llm : Nat → LLMOut) (log : List CallKind)
    (response : RAGResponse) (suggestions : String) :
    (improveStep llm log response suggestions).1.question = response.question ∧
    (improveStep llm log response suggestions).1.sources = response.sources ∧
    (improveStep llm log response suggestions).1.answer =
      (llm log.length).content ∧
    (improveStep llm log response suggestions).1.metadata =
      dictUpsert response.metadata "improved" (JVal.jbool true) ∧
    (improveStep llm log response suggestions).2 =
      log ++ [CallKind.improvement] :=
  ⟨rfl, rfl, rfl, rfl, rfl⟩

/-! ## C6: analysis parse failure handling -/

/-- C6 counterexample: on the valid JSON content `3` — well-formed JSON
that is not an object — `_analyze_query` does not return the default
analysis; `result.get` is called on an `int` and the uncaught
AttributeError aborts the whole query. -/
theorem analysis_default_counterexample :
    analyzeStep (fun _ => numContent) [] "q" =
      Except.error PyErr.attributeError ∧
    agenticQuery (fun _ => numContent) (fun _ _ => []) 3 1 4 "q" =
      Except.error PyErr.attributeError :=
  ⟨rfl, rfl⟩

/-- Dispatch equation of `query` when the analysis succeeds with a
non-decompose strategy. -/
theorem agenticQuery_eq_of_direct (llm : Nat → LLMOut)
    (retr : String → Nat → List SearchResult) (top_k maxIter : Nat)
    (thr : ℚ) (q : String) (analysis : QueryAnalysis) (log1 : List CallKind)
    (h0 : analyzeStep llm [] q = Except.ok (analysis, log1))
    (hd : analysis.search_strategy ≠ SearchStrategy.decompose) :
    agenticQuery llm retr top_k maxIter thr q =
      match handleSimpleQuery llm retr top_k log1 q with
      | Except.error e => Except.error e
      | Except.ok (response, log) =>
          reflectAndImprove llm maxIter thr response log := by
  rw [agenticQuery, h0]
  show (match (if analysis.search_strategy = SearchStrategy.decompose then
      Except.ok (handleComplexQuery llm retr top_k log1 q analysis)
    else handleSimpleQuery llm retr top_k log1 q :
      Except PyErr (RAGResponse × List CallKind)) with
    | Except.error e => Except.error e
    | Except.ok (response, log) =>
        reflectAndImprove llm maxIter thr response log) = _
  rw [if_neg hd]

theorem handleSimpleQuery_ok (llm : Nat → LLMOut)
    (retr : String → Nat → List SearchResult) (top_k : Nat)
    (log : List CallKind) (q : String)
    (h : (llm log.length).parsedJson = none) :
    ∃ r l, handleSimpleQuery llm retr top_k log q = Except.ok (r, l) := by
  simp only [handleSimpleQuery, rewriteStep, genCall, h]
  split
  · exact ⟨_, _, rfl⟩
  · exact ⟨_, _, rfl⟩

theorem reflectGo_ok_of_unparsed (llm : Nat → LLMOut) (thr : ℚ)
    (it n : Nat) (resp : RAGResponse) (log : List CallKind)
    (h : (llm log.length).parsedJson = none) :
    ∃ r l, reflectGo llm thr it n resp log = Except.ok (r, l) := by
  cases n with
  | zero => exact ⟨resp, log, rfl⟩
  | succ m =>
      simp only [reflectGo, evaluateStep, genCall, h]
      have hcond : thr ≤ (neutralReflection.relevance +
          neutralReflection.accuracy + neutralReflection.completeness) / 3 ∨
          neutralReflection.needs_improvement = false := Or.inr rfl
      rw [if_pos hcond]
      exact ⟨_, _, rfl⟩

/-- C6 (amended): content that is not valid JSON yields the fixed default
analysis {simple, direct, sub_queries = []} without any exception; a parsed
JSON object never raises either (per-field defaults, or the full default on
an invalid enum value); and when every LLM response of the query is
unparseable the whole query still completes normally.  (A parsed non-object
JSON value, however, raises — see the counterexample.) -/
theorem analysis_default_correct (llm : Nat → LLMOut) (log : List CallKind)
    (q : String) :
    ((llm log.length).parsedJson = none →
      analyzeStep llm log q =
        Except.ok (defaultAnalysis, log ++ [CallKind.analysis])) ∧
    (∀ fields, (llm log.length).parsedJson = some (JVal.jobj fields) →
      ∃ qa, analyzeStep llm log q =
        Except.ok (qa, log ++ [CallKind.analysis])) ∧
    ((∀ n, (llm n).parsedJson = none) →
      ∀ (retr : String → Nat → List SearchResult) (top_k maxIter : Nat)
        (thr : ℚ),
        ∃ resp finLog, agenticQuery llm retr top_k maxIter thr q =
          Except.ok (resp, finLog)) := by
  refine ⟨?_, ?_, ?_⟩
  · intro h
    simp only [analyzeStep, genCall, h]
  · intro fields h
    simp only [analyzeStep, genCall, h]
    rcases hp : parseAnalysisObj fields with _ | qa
    · exact ⟨defaultAnalysis, rfl⟩
    · exact ⟨qa, rfl⟩
  · intro hall retr top_k maxIter thr
    have h0 : analyzeStep llm [] q =
        Except.ok (defaultAnalysis, [CallKind.analysis]) := by
      simp only [analyzeStep, genCall, hall, List.length_nil,
        List.nil_append]
    rw [agenticQuery_eq_of_direct llm retr top_k maxIter thr q
      defaultAnalysis [CallKind.analysis] h0 (by simp [defaultAnalysis])]
    obtain ⟨r, l, hr⟩ :=
      handleSimpleQuery_ok llm retr top_k [CallKind.analysis] q (hall _)
    rw [hr]
    obtain ⟨r₂, l₂, hr₂⟩ :=
      reflectGo_ok_of_unparsed llm thr 0 maxIter r l (hall _)
    exact ⟨r₂, l₂, hr₂⟩

theorem analysis_default_correct_witness :
    (junkContent.parsedJson = none ∧
      analyzeStep (fun _ => junkContent) [] "q" =
        Except.ok (defaultAnalysis, [CallKind.analysis])) ∧
    (∃ resp finLog,
      agenticQuery (fun _ => junkContent) (fun _ _ => [sampleA]) 3 1 4 "q" =
        Except.ok (resp, finLog)) :=
  ⟨⟨rfl, by
      have h := (analysis_default_correct (fun _ => junkContent) [] "q").1 rfl
      simpa using h⟩,
    (analysis_default_correct (fun _ => junkContent) [] "q").2.2
      (fun _ => rfl) (fun _ _ => [sampleA]) 3 1 4⟩

/-! ## C8: no JSON-body extraction at the structured-output sites -/

/-- C8 counterexample: a response that is a single valid JSON object
surrounded by a fenced code block is passed to `json.loads` whole; the
parse fails and the caller uses the parse-failure default/neutral values —
it does not extract the JSON body, whose fields (`search_strategy =
"decompose"`, `needs_improvement = true`) would have parsed fine. -/
theorem json_extraction_counterexample :
    analyzeStep (fun _ => fencedAnalysisContent) [] "q" =
      Except.ok (defaultAnalysis, [CallKind.analysis]) ∧
    defaultAnalysis.search_strategy = SearchStrategy.direct ∧
    parseAnalysisObj [("query_type", JVal.jstr "complex"),
        ("search_strategy", JVal.jstr "decompose")] =
      some
        { query_type := QueryType.complex,
          search_strategy := SearchStrategy.decompose,
          sub_queries := [], reasoning := "" } ∧
    evaluateStep (fun _ => fencedReflectionContent) [] emptyResponse =
      Except.ok (neutralReflection, [CallKind.reflection]) ∧
    neutralReflection.needs_improvement = false :=
  ⟨rfl, rfl, rfl, rfl, rfl⟩

/-- C8 (amended): the analysis and reflection sites pass the full response
content to `json.loads` without extracting a JSON body from surrounding
formatting noise, so whenever the content as a whole is not valid JSON —
as with a fenced block — the analysis site falls back to the fixed default
and the reflection site to the neutral verdict; the parsed fields inside
the noise are never used. -/
theorem json_extraction_behavior (llm : Nat → LLMOut) (log : List CallKind)
    (q : String) (resp : RAGResponse)
    (h : (llm log.length).parsedJson = none) :
    analyzeStep llm log q =
      Except.ok (defaultAnalysis, log ++ [CallKind.analysis]) ∧
    evaluateStep llm log resp =
      Except.ok (neutralReflection, log ++ [CallKind.reflection]) := by
  constructor
  · simp only [analyzeStep, genCall, h]
  · simp only [evaluateStep, genCall, h]

theorem json_extraction_behavior_witness :
    fencedAnalysisContent.parsedJson = none ∧
    analyzeStep (fun _ => fencedAnalysisContent) [] "q" =
      Except.ok (defaultAnalysis, [CallKind.analysis]) ∧
    evaluateStep (fun _ => fencedAnalysisContent) [] emptyResponse =
      Except.ok (neutralReflection, [CallKind.reflection]) := by
  refine ⟨rfl, ?_, ?_⟩
  · have h := (json_extraction_behavior (fun _ => fencedAnalysisContent) []
      "q" emptyResponse rfl).1
    simpa using h
  · have h := (json_extraction_behavior (fun _ => fencedAnalysisContent) []
      "q" emptyResponse rfl).2
    simpa using h

/-! ## C2: the not-found answer is not exempt from reflection -/

/-- Stub LLM trace: unparseable analysis and rewrite, then a verdict
requesting improvement, then an improved answer. -/
def counterLLM : Nat → LLMOut
  | 2 => badVerdictOut
  | 3 => improvedOut
  | _ => junkContent

/-- The not-found response built by `_handle_simple_query`. -/
def notFoundSimpleResponse (q : String) : RAGResponse :=
  { question := q, answer := notFoundAnswer, sources := [],
    metadata := [("rag_type", JVal.jstr "AgenticRAG"),
      ("strategy", JVal.jstr "simple")] }

/-- The not-found response after one neutral reflection round. -/
def notFoundReflectedResponse (q : String) : RAGResponse :=
  { question := q, answer := notFoundAnswer, sources := [],
    metadata := [("rag_type", JVal.jstr "AgenticRAG"),
      ("strategy", JVal.jstr "simple"),
      ("reflection", reflectionMeta 0 neutralReflection)] }

/-- The verdict parsed from `badVerdictOut`. -/
def badReflection : ReflectionResult :=
  { relevance := 1, accuracy := 1, completeness := 1,
    needs_improvement := true, improvement_suggestions := "" }

/-- The response returned in the improvement counterexample run. -/
def improvedCounterResponse : RAGResponse :=
  { question := "q", answer := "improved answer", sources := [],
    metadata := [("rag_type", JVal.jstr "AgenticRAG"),
      ("strategy", JVal.jstr "simple"), ("improved", JVal.jbool true)] }

/-- One reflection round with an unparseable verdict: the neutral fallback
has `needs_improvement = false`, so the loop exits with the reflection
metadata attached. -/
theorem reflectGo_neutral_step (llm : Nat → LLMOut) (thr : ℚ) (it n : Nat)
    (resp : RAGResponse) (log : List CallKind)
    (h : (llm log.length).parsedJson = none) :
    reflectGo llm thr it (n + 1) resp log =
      Except.ok ({ resp with metadata := dictUpsert resp.metadata "reflection" (reflectionMeta it neutralReflection) },
        log ++ [CallKind.reflection]) := by
  simp only [reflectGo, evaluateStep, genCall, h]
  rw [if_pos (show thr ≤ (neutralReflection.relevance +
      neutralReflection.accuracy + neutralReflection.completeness) / 3 ∨
      neutralReflection.needs_improvement = false from Or.inr rfl)]

/-- C2 counterexample: when retrieval returns no candidates under the
direct strategy, `query` does NOT skip reflection: an evaluation
(reflection) LLM call is made on the not-found answer, and with a verdict
requesting improvement the fixed not-found answer is even replaced by an
improvement generation — the returned answer is "improved answer". -/
theorem notfound_reflection_counterexample :
    agenticQuery (fun _ => junkContent) (fun _ _ => []) 3 1 4 "q" =
      Except.ok (notFoundReflectedResponse "q",
        [CallKind.analysis, CallKind.rewrite, CallKind.reflection]) ∧
    (notFoundReflectedResponse "q").answer = notFoundAnswer ∧
    agenticQuery counterLLM (fun _ _ => []) 3 1 4 "q" =
      Except.ok (improvedCounterResponse,
        [CallKind.analysis, CallKind.rewrite, CallKind.reflection,
          CallKind.improvement]) ∧
    improvedCounterResponse.answer = "improved answer" ∧
    "improved answer" ≠ notFoundAnswer := by
  have e1 : analyzeStep (fun _ => junkContent) [] "q" =
      Except.ok (defaultAnalysis, [CallKind.analysis]) := rfl
  have e2 : handleSimpleQuery (fun _ => junkContent) (fun _ _ => []) 3
      [CallKind.analysis] "q" =
      Except.ok (notFoundSimpleResponse "q",
        [CallKind.analysis, CallKind.rewrite]) := rfl
  have e1c : analyzeStep counterLLM [] "q" =
      Except.ok (defaultAnalysis, [CallKind.analysis]) := rfl
  have e2c : handleSimpleQuery counterLLM (fun _ _ => []) 3
      [CallKind.analysis] "q" =
      Except.ok (notFoundSimpleResponse "q",
        [CallKind.analysis, CallKind.rewrite]) := rfl
  have e3c : evaluateStep counterLLM [CallKind.analysis, CallKind.rewrite]
      (notFoundSimpleResponse "q") =
      Except.ok (badReflection,
        [CallKind.analysis, CallKind.rewrite, CallKind.reflection]) := rfl
  have hc : ¬((4 : ℚ) ≤ (badReflection.relevance + badReflection.accuracy +
      badReflection.completeness) / 3 ∨
      badReflection.needs_improvement = false) := by
    intro hor
    rcases hor with h | h
    · rw [show badReflection.relevance = 1 from rfl,
        show badReflection.accuracy = 1 from rfl,
        show badReflection.completeness = 1 from rfl] at h
      norm_num at h
    · exact absurd h (by decide)
  refine ⟨?_, rfl, ?_, rfl, by decide⟩
  · rw [agenticQuery_eq_of_direct (fun _ => junkContent) (fun _ _ => [])
      3 1 4 "q" defaultAnalysis [CallKind.analysis] e1
      (by simp [defaultAnalysis]), e2]
    show reflectGo (fun _ => junkContent) 4 0 1 (notFoundSimpleResponse "q")
      [CallKind.analysis, CallKind.rewrite] = _
    rw [reflectGo_neutral_step (fun _ => junkContent) 4 0 0
      (notFoundSimpleResponse "q") [CallKind.analysis, CallKind.rewrite] rfl]
    rfl
  · rw [agenticQuery_eq_of_direct counterLLM (fun _ _ => [])
      3 1 4 "q" defaultAnalysis [CallKind.analysis] e1c
      (by simp [defaultAnalysis]), e2c]
    show reflectGo counterLLM 4 0 1 (notFoundSimpleResponse "q")
      [CallKind.analysis, CallKind.rewrite] = _
    simp only [reflectGo, e3c]
    rw [if_neg hc]
    rfl

/-- C2 (amended): when retrieval returns no candidates under the direct
strategy, the controller produces the fixed not-found answer with empty
sources and then runs the reflection loop on it like any other response:
with `max_iterations ≥ 1` an evaluation call is made (here exactly one,
since the unparseable verdict is neutral and ends the loop), and the final
answer text remains the fixed not-found string. -/
theorem notfound_reflection_behavior (llm : Nat → LLMOut)
    (retr : String → Nat → List SearchResult) (top_k maxIter : Nat)
    (thr : ℚ) (q : String) (hllm : ∀ n, (llm n).parsedJson = none)
    (hretr : ∀ q' k, retr q' k = []) :
    ∃ resp log,
      agenticQuery llm retr top_k maxIter thr q = Except.ok (resp, log) ∧
      resp.answer = notFoundAnswer ∧ resp.sources = [] ∧
      log.count CallKind.reflection = min maxIter 1 := by
  have h0 : analyzeStep llm [] q =
      Except.ok (defaultAnalysis, [CallKind.analysis]) := by
    simp only [analyzeStep, genCall, hllm, List.length_nil, List.nil_append]
  have hnf : handleSimpleQuery llm retr top_k [CallKind.analysis] q =
      Except.ok (notFoundSimpleResponse q,
        [CallKind.analysis, CallKind.rewrite]) := by
    simp only [handleSimpleQuery, rewriteStep, genCall, hllm]
    simp [hretr, mergeBestList, sortDescBy, notFoundSimpleResponse]
  rw [agenticQuery_eq_of_direct llm retr top_k maxIter thr q defaultAnalysis
    [CallKind.analysis] h0 (by simp [defaultAnalysis]), hnf]
  cases maxIter with
  | zero =>
      exact ⟨notFoundSimpleResponse q,
        [CallKind.analysis, CallKind.rewrite], rfl, rfl, rfl, rfl⟩
  | succ m =>
      have hcond : thr ≤ (neutralReflection.relevance +
          neutralReflection.accuracy + neutralReflection.completeness) / 3 ∨
          neutralReflection.needs_improvement = false := Or.inr rfl
      have hdone : min (m + 1) 1 = 1 := by omega
      have href : reflectGo llm thr 0 (m + 1) (notFoundSimpleResponse q)
          [CallKind.analysis, CallKind.rewrite] =
          Except.ok (notFoundReflectedResponse q,
            [CallKind.analysis, CallKind.rewrite, CallKind.reflection]) := by
        simp only [reflectGo, evaluateStep, genCall, hllm]
        rw [if_pos hcond]
        rfl
      refine ⟨notFoundReflectedResponse q,
        [CallKind.analysis, CallKind.rewrite, CallKind.reflection],
        href, rfl, rfl, ?_⟩
      rw [hdone]
      decide

theorem notfound_reflection_behavior_witness :
    junkContent.parsedJson = none ∧
    (∃ resp log,
      agenticQuery (fun _ => junkContent)
          (fun _ _ => ([] : List SearchResult)) 3 2 4 "q" =
        Except.ok (resp, log) ∧
      resp.answer = notFoundAnswer ∧ resp.sources = [] ∧
      log.count CallKind.reflection = min 2 1) :=
  ⟨rfl, notfound_reflection_behavior (fun _ => junkContent)
    (fun _ _ => ([] : List SearchResult)) 3 2 4 "q"
    (fun _ => rfl) (fun _ _ => rfl)⟩

/-! ## C5: the reflection loop is bounded and exits as soon as the verdict
passes -/

/-- The loop's pass condition: mean score at or above the threshold, or no
improvement requested. -/
def goodVerdict (thr : ℚ) (v : ReflectionResult) : Prop :=
  thr ≤ (v.relevance + v.accuracy + v.completeness) / 3 ∨
    v.needs_improvement = false

/-- The response as returned on loop exit at completed-iteration count
`iteration`. -/
def withReflMeta (r : RAGResponse) (iteration : Nat) (v : ReflectionResult) :
    RAGResponse :=
  { r with metadata :=
      dictUpsert r.metadata "reflection" (reflectionMeta iteration v) }

/-- The call-log suffix of `k` completed improve rounds. -/
def badRounds : Nat → List CallKind
  | 0 => []
  | k + 1 => [CallKind.reflection, CallKind.improvement] ++ badRounds k

/-- The observable outcome of `_evaluate_response` on one LLM output:
`some v` when the call returns verdict `v` (parsed or the neutral
fallback), `none` when it raises. -/
def evalOutcome (o : LLMOut) : Option ReflectionResult :=
  match o.parsedJson with
  | none => some neutralReflection
  | some (JVal.jobj fields) => parseReflectionObj fields
  | some _ => none

/-- The response after `k` improvement generations starting from `resp`,
when the loop began with `base` calls already made: improvement `k` uses
the LLM response at call index `base + 2*k + 1`. -/
def improvedSeq (llm : Nat → LLMOut) (base : Nat) (resp : RAGResponse) :
    Nat → RAGResponse
  | 0 => resp
  | k + 1 =>
      let prev := improvedSeq llm base resp k
      { question := prev.question,
        answer := (llm (base + 2 * k + 1)).content,
        sources := prev.sources,
        metadata := dictUpsert prev.metadata "improved" (JVal.jbool true) }

/-- The always-failing verdict of the spec's termination scenario:
`needs_improvement = true` with mean score 2. -/
def meanTwoVerdict : ReflectionResult :=
  { relevance := 2, accuracy := 2, completeness := 2,
    needs_improvement := true, improvement_suggestions := "improve" }

theorem evaluateStep_eq_of_outcome (llm : Nat → LLMOut) (log : List CallKind)
    (r : RAGResponse) (v : ReflectionResult)
    (h : evalOutcome (llm log.length) = some v) :
    evaluateStep llm log r = Except.ok (v, log ++ [CallKind.reflection]) := by
  rw [evalOutcome] at h
  rcases hp : (llm log.length).parsedJson with _ | j
  · rw [hp] at h
    simp only [evaluateStep, genCall, hp]
    rw [Option.some.inj h]
  · rw [hp] at h
    cases j with
    | jobj fields =>
        simp only [evaluateStep, genCall, hp]
        simp only [] at h
        rw [h]
    | jnull => exact absurd h (by simp)
    | jbool b => exact absurd h (by simp)
    | jnum q => exact absurd h (by simp)
    | jstr s => exact absurd h (by simp)
    | jarr xs => exact absurd h (by simp)

theorem evaluateStep_ok_log (llm : Nat → LLMOut) (log : List CallKind)
    (r : RAGResponse) (v : ReflectionResult) (l : List CallKind)
    (h : evaluateStep llm log r = Except.ok (v, l)) :
    l = log ++ [CallKind.reflection] := by
  simp only [evaluateStep, genCall] at h
  rcases hp : (llm log.length).parsedJson with _ | j
  · rw [hp] at h
    exact (congrArg Prod.snd (Except.ok.inj h)).symm
  · rw [hp] at h
    cases j <;> simp only [] at h
    case jobj fields =>
        rcases hq : parseReflectionObj fields with _ | w
        · rw [hq] at h; cases h
        · rw [hq] at h
          exact (congrArg Prod.snd (Except.ok.inj h)).symm
    all_goals cases h

theorem improvedSeq_shift (llm : Nat → LLMOut) (base : Nat)
    (resp : RAGResponse) :
    ∀ m, improvedSeq llm (base + 2) (improvedSeq llm base resp 1) m =
      improvedSeq llm base resp (m + 1) := by
  intro m
  induction m with
  | zero => rfl
  | succ k ih =>
      have hidx : base + 2 + 2 * k + 1 = base + 2 * (k + 1) + 1 := by ring
      rw [improvedSeq, ih, hidx]
      rfl

theorem badRounds_counts (k : Nat) :
    (badRounds k).count CallKind.reflection = k ∧
    (badRounds k).count CallKind.improvement = k := by
  induction k with
  | zero => exact ⟨rfl, rfl⟩
  | succ m ih =>
      constructor
      · rw [badRounds, List.count_append, ih.1,
          show ([CallKind.reflection, CallKind.improvement]).count
            CallKind.reflection = 1 from rfl]
        omega
      · rw [badRounds, List.count_append, ih.2,
          show ([CallKind.reflection, CallKind.improvement]).count
            CallKind.improvement = 1 from rfl]
        omega

/-- One unfolding of the loop body when the evaluation call succeeds. -/
theorem reflectGo_step (llm : Nat → LLMOut) (thr : ℚ) (it n : Nat)
    (resp : RAGResponse) (log : List CallKind) (v : ReflectionResult)
    (hev : evaluateStep llm log resp =
      Except.ok (v, log ++ [CallKind.reflection])) :
    reflectGo llm thr it (n + 1) resp log =
      if thr ≤ (v.relevance + v.accuracy + v.completeness) / 3 ∨
          v.needs_improvement = false then
        Except.ok (withReflMeta resp it v, log ++ [CallKind.reflection])
      else
        reflectGo llm thr (it + 1) n
          (improveStep llm (log ++ [CallKind.reflection]) resp
            v.improvement_suggestions).1
          (improveStep llm (log ++ [CallKind.reflection]) resp
            v.improvement_suggestions).2 := by
  rw [reflectGo, hev]
  rfl

/-- The improved response and call log of one improvement generation. -/
theorem improveStep_after_eval (llm : Nat → LLMOut) (log : List CallKind)
    (resp : RAGResponse) (s : String) :
    (improveStep llm (log ++ [CallKind.reflection]) resp s).1 =
      improvedSeq llm log.length resp 1 ∧
    (improveStep llm (log ++ [CallKind.reflection]) resp s).2 =
      log ++ [CallKind.reflection, CallKind.improvement] := by
  constructor
  · simp [improveStep, genCall, improvedSeq]
  · simp [improveStep, genCall]

/-- When every verdict within the iteration budget fails the pass
condition, the loop performs exactly `maxIter` improve rounds and returns
the last improved response. -/
theorem reflectGo_all_bad (llm : Nat → LLMOut) (thr : ℚ) :
    ∀ (maxIter it : Nat) (resp : RAGResponse) (log : List CallKind)
      (V : Nat → ReflectionResult),
      (∀ k, evalOutcome (llm (log.length + 2 * k)) = some (V k)) →
      (∀ j, j < maxIter → ¬ goodVerdict thr (V j)) →
      reflectGo llm thr it maxIter resp log =
        Except.ok (improvedSeq llm log.length resp maxIter,
          log ++ badRounds maxIter) := by
  intro maxIter
  induction maxIter with
  | zero =>
      intro it resp log V _ _
      rw [reflectGo, show badRounds 0 = [] from rfl, List.append_nil]
      rfl
  | succ m ih =>
      intro it resp log V hv hbad
      have hv0 := hv 0
      rw [Nat.mul_zero, Nat.add_zero] at hv0
      have hev := evaluateStep_eq_of_outcome llm log resp (V 0) hv0
      have hbad0 : ¬(thr ≤ ((V 0).relevance + (V 0).accuracy +
          (V 0).completeness) / 3 ∨ (V 0).needs_improvement = false) :=
        hbad 0 (Nat.succ_pos m)
      rw [reflectGo_step llm thr it m resp log (V 0) hev, if_neg hbad0,
        (improveStep_after_eval llm log resp (V 0).improvement_suggestions).1,
        (improveStep_after_eval llm log resp (V 0).improvement_suggestions).2]
      have hv' : ∀ k, evalOutcome (llm
          ((log ++ [CallKind.reflection, CallKind.improvement]).length +
            2 * k)) = some (V (k + 1)) := by
        intro k
        have h := hv (k + 1)
        have hlen : (log ++ [CallKind.reflection,
            CallKind.improvement]).length + 2 * k =
            log.length + 2 * (k + 1) := by
          simp only [List.length_append, List.length_cons, List.length_nil]
          ring
        rw [hlen]
        exact h
      have hbad' : ∀ j, j < m → ¬ goodVerdict thr (V (j + 1)) :=
        fun j hj => hbad (j + 1) (Nat.succ_lt_succ hj)
      rw [ih (it + 1) (improvedSeq llm log.length resp 1)
        (log ++ [CallKind.reflection, CallKind.improvement])
        (fun k => V (k + 1)) hv' hbad']
      have hlen2 : (log ++ [CallKind.reflection,
          CallKind.improvement]).length = log.length + 2 := by
        simp
      rw [hlen2, improvedSeq_shift, List.append_assoc]
      rfl

/-- When round `k` (0-based) is the first whose verdict passes, the loop
exits there: `k` improve rounds, then the evaluation that passes, and the
current (k-times improved) answer is returned with the reflection metadata
recorded at iteration `it + k`. -/
theorem reflectGo_first_good (llm : Nat → LLMOut) (thr : ℚ) :
    ∀ (maxIter it : Nat) (resp : RAGResponse) (log : List CallKind)
      (V : Nat → ReflectionResult),
      (∀ k, evalOutcome (llm (log.length + 2 * k)) = some (V k)) →
      ∀ k, k < maxIter → (∀ j, j < k → ¬ goodVerdict thr (V j)) →
        goodVerdict thr (V k) →
        reflectGo llm thr it maxIter resp log =
          Except.ok (withReflMeta (improvedSeq llm log.length resp k)
              (it + k) (V k),
            log ++ badRounds k ++ [CallKind.reflection]) := by
  intro maxIter
  induction maxIter with
  | zero =>
      intro it resp log V _ k hk
      exact absurd hk (Nat.not_lt_zero k)
  | succ m ih =>
      intro it resp log V hv k hk hbadlt hgood
      have hv0 := hv 0
      rw [Nat.mul_zero, Nat.add_zero] at hv0
      have hev := evaluateStep_eq_of_outcome llm log resp (V 0) hv0
      rw [reflectGo_step llm thr it m resp log (V 0) hev]
      cases k with
      | zero =>
          have hgood0 : thr ≤ ((V 0).relevance + (V 0).accuracy +
              (V 0).completeness) / 3 ∨ (V 0).needs_improvement = false :=
            hgood
          rw [if_pos hgood0, show badRounds 0 = [] from rfl, List.append_nil]
          rfl
      | succ k₁ =>
          have hbad0 : ¬(thr ≤ ((V 0).relevance + (V 0).accuracy +
              (V 0).completeness) / 3 ∨ (V 0).needs_improvement = false) :=
            hbadlt 0 (Nat.succ_pos k₁)
          rw [if_neg hbad0,
            (improveStep_after_eval llm log resp
              (V 0).improvement_suggestions).1,
            (improveStep_after_eval llm log resp
              (V 0).improvement_suggestions).2]
          have hv' : ∀ k, evalOutcome (llm
              ((log ++ [CallKind.reflection, CallKind.improvement]).length +
                2 * k)) = some (V (k + 1)) := by
            intro k
            have h := hv (k + 1)
            have hlen : (log ++ [CallKind.reflection,
                CallKind.improvement]).length + 2 * k =
                log.length + 2 * (k + 1) := by
              simp only [List.length_append, List.length_cons,
                List.length_nil]
              ring
            rw [hlen]
            exact h
          have hbadlt' : ∀ j, j < k₁ → ¬ goodVerdict thr (V (j + 1)) :=
            fun j hj => hbadlt (j + 1) (Nat.succ_lt_succ hj)
          rw [ih (it + 1) (improvedSeq llm log.length resp 1)
            (log ++ [CallKind.reflection, CallKind.improvement])
            (fun k => V (k + 1)) hv' k₁ (Nat.lt_of_succ_lt_succ hk)
            hbadlt' hgood]
          have hlen2 : (log ++ [CallKind.reflection,
              CallKind.improvement]).length = log.length + 2 := by
            simp
          have hit : it + 1 + k₁ = it + (k₁ + 1) := by ring
          rw [hlen2, improvedSeq_shift, hit,
            show badRounds (k₁ + 1) =
              [CallKind.reflection, CallKind.improvement] ++ badRounds k₁
              from rfl]
          simp [List.append_assoc]

/-- The loop makes at most `maxIter` evaluation calls and at most `maxIter`
improvement calls, regardless of the verdicts. -/
theorem reflectGo_bounds (llm : Nat → LLMOut) (thr : ℚ) :
    ∀ (maxIter it : Nat) (resp : RAGResponse) (log : List CallKind)
      (out : RAGResponse) (log' : List CallKind),
      reflectGo llm thr it maxIter resp log = Except.ok (out, log') →
      ∃ Δ, log' = log ++ Δ ∧ Δ.count CallKind.reflection ≤ maxIter ∧
        Δ.count CallKind.improvement ≤ maxIter := by
  intro maxIter
  induction maxIter with
  | zero =>
      intro it resp log out log' h
      rw [reflectGo] at h
      refine ⟨[], ?_, Nat.le_refl 0, Nat.le_refl 0⟩
      rw [List.append_nil]
      exact (congrArg Prod.snd (Except.ok.inj h)).symm
  | succ m ih =>
      intro it resp log out log' h
      rcases hev : evaluateStep llm log resp with e | p
      · rw [reflectGo, hev] at h
        exact Except.noConfusion h
      · obtain ⟨v, log₁⟩ := p
        have hlog₁ := evaluateStep_ok_log llm log resp v log₁ hev
        subst hlog₁
        rw [reflectGo_step llm thr it m resp log v hev] at h
        by_cases hg : thr ≤ (v.relevance + v.accuracy + v.completeness) / 3 ∨
            v.needs_improvement = false
        · rw [if_pos hg] at h
          refine ⟨[CallKind.reflection],
            (congrArg Prod.snd (Except.ok.inj h)).symm, ?_, ?_⟩
          · rw [show ([CallKind.reflection]).count CallKind.reflection = 1
              from rfl]
            omega
          · rw [show ([CallKind.reflection]).count CallKind.improvement = 0
              from rfl]
            omega
        · rw [if_neg hg,
            (improveStep_after_eval llm log resp
              v.improvement_suggestions).2] at h
          obtain ⟨Δ, hΔ, hc1, hc2⟩ := ih (it + 1) _ _ out log' h
          refine ⟨[CallKind.reflection, CallKind.improvement] ++ Δ, ?_, ?_, ?_⟩
          · rw [hΔ, List.append_assoc]
          · rw [List.count_append,
              show ([CallKind.reflection, CallKind.improvement]).count
                CallKind.reflection = 1 from rfl]
            omega
          · rw [List.count_append,
              show ([CallKind.reflection, CallKind.improvement]).count
                CallKind.improvement = 1 from rfl]
            omega

/-- An LLM output parsing to the scenario verdict. -/
def meanTwoOut : LLMOut :=
  { content := "better", parsedJson := some (JVal.jobj
      [("relevance", JVal.jnum 2), ("accuracy", JVal.jnum 2),
       ("completeness", JVal.jnum 2),
       ("needs_improvement", JVal.jbool true),
       ("improvement_suggestions", JVal.jstr "improve")]),
    usage := JVal.jnull }

/-- C5: for every initial response and iteration bound the reflection loop
performs at most `max_iterations` evaluation rounds and at most
`max_iterations` improvement generations; it terminates early, returning
the current (k-times improved) answer, as soon as a round's verdict has
mean at or above the threshold or `needs_improvement = false`; once the
bound is reached it returns the last produced answer regardless of
verdict; and with `quality_threshold = 4`, `max_iterations = 2` and a
verdict stub always returning `needs_improvement = true` with mean score
2, exactly 2 improvement generations occur and the second improved answer
is returned. -/
theorem reflection_loop_bounded (llm : Nat → LLMOut) (maxIter : Nat)
    (thr : ℚ) (resp : RAGResponse) (log : List CallKind) :
    (∀ out log',
      reflectAndImprove llm maxIter thr resp log = Except.ok (out, log') →
      ∃ Δ, log' = log ++ Δ ∧ Δ.count CallKind.reflection ≤ maxIter ∧
        Δ.count CallKind.improvement ≤ maxIter) ∧
    (∀ V : Nat → ReflectionResult,
      (∀ k, evalOutcome (llm (log.length + 2 * k)) = some (V k)) →
      (∀ k, k < maxIter → (∀ j, j < k → ¬ goodVerdict thr (V j)) →
        goodVerdict thr (V k) →
        reflectAndImprove llm maxIter thr resp log =
          Except.ok (withReflMeta (improvedSeq llm log.length resp k) k
              (V k),
            log ++ badRounds k ++ [CallKind.reflection])) ∧
      ((∀ j, j < maxIter → ¬ goodVerdict thr (V j)) →
        reflectAndImprove llm maxIter thr resp log =
          Except.ok (improvedSeq llm log.length resp maxIter,
            log ++ badRounds maxIter)) ∧
      (maxIter = 2 → thr = 4 → (∀ k, V k = meanTwoVerdict) →
        reflectAndImprove llm maxIter thr resp log =
          Except.ok (improvedSeq llm log.length resp 2,
            log ++ badRounds 2) ∧
        (log ++ badRounds 2).count CallKind.improvement =
          log.count CallKind.improvement + 2 ∧
        (improvedSeq llm log.length resp 2).answer =
          (llm (log.length + 3)).content)) := by
  refine ⟨?_, ?_⟩
  · intro out log' h
    exact reflectGo_bounds llm thr maxIter 0 resp log out log' h
  · intro V hv
    refine ⟨?_, ?_, ?_⟩
    · intro k hk hbadlt hgood
      have h := reflectGo_first_good llm thr maxIter 0 resp log V hv k hk
        hbadlt hgood
      rw [reflectAndImprove, h, Nat.zero_add]
    · intro hbad
      exact reflectGo_all_bad llm thr maxIter 0 resp log V hv hbad
    · intro h2 h4 hstub
      subst h2
      subst h4
      have hbadall : ∀ j, j < 2 → ¬ goodVerdict 4 (V j) := by
        intro j _ hor
        rw [hstub j] at hor
        rcases hor with h | h
        · rw [show meanTwoVerdict.relevance = 2 from rfl,
            show meanTwoVerdict.accuracy = 2 from rfl,
            show meanTwoVerdict.completeness = 2 from rfl] at h
          norm_num at h
        · exact absurd h (by decide)
      refine ⟨reflectGo_all_bad llm 4 2 0 resp log V hv hbadall, ?_, rfl⟩
      rw [List.count_append, (badRounds_counts 2).2]

theorem reflection_loop_bounded_witness :
    (∀ k : Nat, evalOutcome ((fun _ => meanTwoOut)
        (([] : List CallKind).length + 2 * k)) = some meanTwoVerdict) ∧
    (reflectAndImprove (fun _ => meanTwoOut) 2 4 emptyResponse [] =
      Except.ok (improvedSeq (fun _ => meanTwoOut) 0 emptyResponse 2,
        [] ++ badRounds 2) ∧
    (([] : List CallKind) ++ badRounds 2).count CallKind.improvement =
      ([] : List CallKind).count CallKind.improvement + 2 ∧
    (improvedSeq (fun _ => meanTwoOut) 0 emptyResponse 2).answer =
      meanTwoOut.content) :=
  ⟨fun _ => rfl,
    ((reflection_loop_bounded (fun _ => meanTwoOut) 2 4 emptyResponse
        []).2 (fun _ => meanTwoVerdict) (fun _ => rfl)).2.2
      rfl rfl (fun _ => rfl)⟩

end RagEval
